import Mathlib

/-!
Verification of the AI-Studio execution core against its design spec.

Each Python function named in a claim is embedded as an executable Lean
definition over `List Char` / `String`, `Nat` / `Int` (Python integers are
unbounded) and `Option` / `Except` for fallible paths.  External effects
(LLM streaming, the tool executor, wall-clock time, filesystem state) are
supplied as explicit parameters, so every run of the embedded code is a
pure function of its inputs.
-/

namespace AIStudio

/-! ## Generic helpers shared by the embeddings -/

/-- Boolean substring test on character lists (Python `needle in hay`). -/
def containsSub (needle : List Char) : List Char → Bool
  | [] => needle.isEmpty
  | c :: t => needle.isPrefixOf (c :: t) || containsSub needle t

/-- `containsSub` agrees with `List.IsInfix`. -/
theorem containsSub_infix_iff (needle l : List Char) :
    containsSub needle l = true ↔ needle <:+: l := by
  induction l with
  | nil =>
    simp [containsSub, List.isEmpty_iff]
  | cons c t ih =>
    simp [containsSub, List.infix_cons_iff, ih, List.isPrefixOf_iff_prefix]

/-- Python `str.strip()` (left half): drop leading whitespace. -/
def lstripWS (l : List Char) : List Char := l.dropWhile Char.isWhitespace

/-- Python `str.strip()` (right half): drop trailing whitespace. -/
def rstripWS (l : List Char) : List Char :=
  (l.reverse.dropWhile Char.isWhitespace).reverse

/-- Python `str.strip()` on a character list (ASCII whitespace). -/
def pyStrip (l : List Char) : List Char := rstripWS (lstripWS l)

/-- Python `str.split()` helper: split on whitespace runs, discarding empties. -/
def pyWordsAux : List Char → List Char → List (List Char)
  | [], acc => if acc.isEmpty then [] else [acc.reverse]
  | c :: rest, acc =>
    if c.isWhitespace then
      if acc.isEmpty then pyWordsAux rest [] else acc.reverse :: pyWordsAux rest []
    else pyWordsAux rest (c :: acc)

/-- Python `str.split()` with no separator: whitespace-delimited words. -/
def pyWords (l : List Char) : List (List Char) := pyWordsAux l []

/-- `os.path.basename` on POSIX: the part after the last slash. -/
def pyBasename (l : List Char) : List Char :=
  (l.reverse.takeWhile (fun c => c ≠ '/')).reverse

/-! ## C1 — `src/backend/ai/tools/builtin/commands.py` -/

/-- `LETHAL_PATTERNS` (commands.py line 38). -/
def LETHAL_PATTERNS : List String :=
  ["rm -rf /", "mkfs", "> /dev/", ":()\x7b :|:& \x7d;:", "shutdown", "reboot"]

/-- `READONLY_COMMANDS` (commands.py lines 19-35): `some none` = all
sub-commands allowed, `some (some l)` = only those sub-commands. -/
def READONLY_COMMANDS (cmd : String) : Option (Option (List String)) :=
  match cmd with
  | "git" => some (some ["log", "diff", "show", "status", "branch", "tag",
      "describe", "rev-parse", "ls-files", "blame", "shortlog", "remote", "stash"])
  | "ls" | "cat" | "head" | "tail" | "find" | "grep" | "wc" | "file"
  | "diff" | "pwd" | "echo" | "which" | "du" | "stat" | "realpath"
  | "dirname" | "basename" | "env" | "uname" | "whoami" | "date" | "tree"
  | "less" | "more" | "sort" | "uniq" | "awk" | "sed" | "cut" | "tr"
  | "xargs" => some none
  | "python3" => some (some ["-c", "--version", "-V"])
  | "python" => some (some ["-c", "--version", "-V"])
  | "node" => some (some ["-e", "--version", "-v"])
  | "docker" => some (some ["ps", "images", "logs", "inspect", "stats", "top",
      "version", "info"])
  | "docker-compose" => some (some ["ps", "logs", "config", "images"])
  | _ => none

/-- ASCII word character, for the `\b` boundary of the regex
`\|\s*tee\b` (commands.py line 62).  Python `re` also counts non-ASCII
letters as word characters; the embedding restricts to ASCII. -/
def isWordChar (c : Char) : Bool := c.isAlphanum || c == '_'

/-- Does the regex `tee\b` match at the head of `l`? -/
def teeAt (l : List Char) : Bool :=
  match l with
  | a :: b :: c :: rest =>
    a == 't' && b == 'e' && c == 'e' &&
      (match rest with
       | [] => true
       | d :: _ => ! isWordChar d)
  | _ => false

/-- Does the regex `\|\s*tee\b` match anywhere in `l`?
(`re.search` in commands.py line 62.) -/
def teeMatch : List Char → Bool
  | [] => false
  | c :: rest =>
    (c == '|' && teeAt (rest.dropWhile Char.isWhitespace)) || teeMatch rest

/-- One pipe segment's whitelist check (commands.py lines 69-86 loop body):
`true` = the loop `continue`s, `false` = the function returns `False`. -/
def segmentOk (seg : List Char) : Bool :=
  match pyWords seg with
  | [] => false
  | p0 :: rest =>
    let cmd := String.mk (pyBasename p0)
    match READONLY_COMMANDS cmd with
    | none => false
    | some none => true
    | some (some subs) =>
      match rest with
      | [] => true
      | p1 :: _ => subs.contains (String.mk p1)

/-- `is_readonly_command` (commands.py lines 44-88).  The regex
`>{1,2}` matches iff a `>` character is present. -/
def is_readonly_command (command_str : String) : Bool :=
  let stripped := pyStrip command_str.data
  if stripped.isEmpty then false
  else if stripped.contains '>' then false
  else if containsSub "&&".data stripped || stripped.contains ';' then false
  else if teeMatch stripped then false
  else if stripped.contains (Char.ofNat 96) || containsSub "$(".data stripped then false
  else
    let segs := ((stripped.splitOn '|').map pyStrip).filter (fun s => !s.isEmpty)
    segs.all segmentOk

theorem mem_dropWhile_of_not {α : Type} (p : α → Bool) {a : α} {l : List α}
    (hpa : p a = false) (h : a ∈ l) : a ∈ l.dropWhile p := by
  induction l with
  | nil => exact absurd h (List.not_mem_nil a)
  | cons c t ih =>
    by_cases hc : p c
    · rw [List.dropWhile_cons, if_pos hc]
      rcases List.mem_cons.mp h with rfl | hmem
      · rw [hc] at hpa; exact absurd hpa (by simp)
      · exact ih hmem
    · rw [List.dropWhile_cons, if_neg hc]
      exact h

theorem mem_pyStrip {c : Char} {l : List Char}
    (hw : c.isWhitespace = false) (h : c ∈ l) : c ∈ pyStrip l := by
  have h1 : c ∈ lstripWS l := mem_dropWhile_of_not _ hw h
  have h2 : c ∈ (lstripWS l).reverse := List.mem_reverse.mpr h1
  have h3 : c ∈ (lstripWS l).reverse.dropWhile Char.isWhitespace :=
    mem_dropWhile_of_not _ hw h2
  exact List.mem_reverse.mpr h3

theorem infix_lstrip {c : Char} {tl l : List Char}
    (hc : c.isWhitespace = false) (h : (c :: tl) <:+: l) :
    (c :: tl) <:+: lstripWS l := by
  obtain ⟨u, v, rfl⟩ := h
  unfold lstripWS
  rw [List.append_assoc, List.dropWhile_append]
  by_cases he : (u.dropWhile Char.isWhitespace).isEmpty
  · rw [if_pos he]
    rw [List.cons_append, List.dropWhile_cons, if_neg (by simp [hc])]
    exact ⟨[], v, by simp⟩
  · rw [if_neg he]
    exact ⟨u.dropWhile Char.isWhitespace, v, by simp⟩

theorem infix_pyStrip {c d : Char} {tl tl2 n l : List Char}
    (hcons : n = c :: tl) (hrev : n.reverse = d :: tl2)
    (hc : c.isWhitespace = false) (hd : d.isWhitespace = false)
    (h : n <:+: l) : n <:+: pyStrip l := by
  subst hcons
  have h1 : (c :: tl) <:+: lstripWS l := infix_lstrip hc h
  have h2 : (c :: tl).reverse <:+: (lstripWS l).reverse :=
    List.reverse_infix.mpr h1
  rw [hrev] at h2
  have h3 : (d :: tl2) <:+: lstripWS (lstripWS l).reverse :=
    infix_lstrip hd h2
  unfold pyStrip rstripWS
  have h4 := List.reverse_infix.mpr h3
  rw [← hrev, List.reverse_reverse] at h4
  exact h4
theorem teeMatch_allWS {w : List Char}
    (hw : ∀ c ∈ w, c.isWhitespace = true) : teeMatch w = false := by
  induction w with
  | nil => rfl
  | cons c t ih =>
    have hc : c.isWhitespace = true := hw c (List.mem_cons_self c t)
    have hne : (c == '|') = false := by
      cases h : c == '|'
      · rfl
      · rw [beq_iff_eq] at h; subst h; simp at hc
    simp only [teeMatch, hne, Bool.false_and, Bool.false_or]
    exact ih (fun x hx => hw x (List.mem_cons_of_mem c hx))

theorem teeMatch_lstrip {l : List Char} (h : teeMatch l = true) :
    teeMatch (lstripWS l) = true := by
  induction l with
  | nil => exact h
  | cons c t ih =>
    by_cases hc : c.isWhitespace
    · have hne : (c == '|') = false := by
        cases hb : c == '|'
        · rfl
        · rw [beq_iff_eq] at hb; subst hb; simp at hc
      simp only [teeMatch, hne, Bool.false_and, Bool.false_or] at h
      rw [lstripWS, List.dropWhile_cons, if_pos hc]
      exact ih h
    · rw [lstripWS, List.dropWhile_cons, if_neg hc]
      exact h

theorem teeAt_append_ws {d w : List Char} (hne : d ≠ [])
    (hw : ∀ c ∈ w, c.isWhitespace = true)
    (h : teeAt (d ++ w) = true) : teeAt d = true := by
  match d with
  | [] => exact absurd rfl hne
  | [a] =>
    match w, hw with
    | [], _ => exact h
    | [b], hw => simp [teeAt] at h
    | b :: c :: r, hw =>
      simp only [List.cons_append, List.nil_append, teeAt, Bool.and_eq_true,
        beq_iff_eq] at h
      obtain ⟨⟨⟨_, rfl⟩, _⟩, _⟩ := h
      have := hw 'e' (List.mem_cons_self _ _)
      simp at this
  | [a, b] =>
    match w, hw with
    | [], _ => exact h
    | c :: r, hw =>
      simp only [List.cons_append, List.nil_append, teeAt, Bool.and_eq_true,
        beq_iff_eq] at h
      obtain ⟨⟨⟨_, _⟩, rfl⟩, _⟩ := h
      have := hw 'e' (List.mem_cons_self _ _)
      simp at this
  | a :: b :: c :: r =>
    simp only [List.cons_append, teeAt, Bool.and_eq_true] at h ⊢
    obtain ⟨habc, hbound⟩ := h
    refine ⟨habc, ?_⟩
    match r with
    | [] =>
      rfl
    | y :: r2 =>
      exact hbound

theorem teeMatch_append_ws {x w : List Char}
    (hw : ∀ c ∈ w, c.isWhitespace = true)
    (h : teeMatch (x ++ w) = true) : teeMatch x = true := by
  induction x with
  | nil => rw [List.nil_append] at h; rw [teeMatch_allWS hw] at h; exact h
  | cons c t ih =>
    rw [List.cons_append] at h
    simp only [teeMatch, Bool.or_eq_true, Bool.and_eq_true] at h ⊢
    rcases h with ⟨hpipe, hta⟩ | hrest
    · left
      refine ⟨hpipe, ?_⟩
      rw [List.dropWhile_append] at hta
      by_cases he : (t.dropWhile Char.isWhitespace).isEmpty
      · rw [if_pos he] at hta
        rw [List.dropWhile_eq_nil_iff.mpr hw] at hta
        exact absurd hta (by simp [teeAt])
      · rw [if_neg he] at hta
        exact teeAt_append_ws (by simpa [List.isEmpty_iff] using he) hw hta
    · right; exact ih hrest

theorem teeMatch_pyStrip {l : List Char} (h : teeMatch l = true) :
    teeMatch (pyStrip l) = true := by
  have h1 : teeMatch (lstripWS l) = true := teeMatch_lstrip h
  set m := lstripWS l with hm
  have hdecomp : m = rstripWS m ++ (m.reverse.takeWhile Char.isWhitespace).reverse := by
    rw [rstripWS]
    rw [← List.reverse_append]
    rw [List.takeWhile_append_dropWhile]
    rw [List.reverse_reverse]
  have hws : ∀ c ∈ (m.reverse.takeWhile Char.isWhitespace).reverse,
      c.isWhitespace = true := by
    intro c hc
    rw [List.mem_reverse] at hc
    exact List.mem_takeWhile_imp hc
  rw [hdecomp] at h1
  exact teeMatch_append_ws hws h1
/-- C1: the claim as stated is false (`is_readonly_command` does not inspect
`LETHAL_PATTERNS`): the command "echo shutdown |teex/cat" is accepted as
read-only yet contains the lethal pattern "shutdown" and the literal
substring "|tee". -/
theorem C1_counterexample :
    is_readonly_command "echo shutdown |teex/cat" = true ∧
    "shutdown" ∈ LETHAL_PATTERNS ∧
    "shutdown".data <:+: "echo shutdown |teex/cat".data ∧
    "|tee".data <:+: "echo shutdown |teex/cat".data := by
  refine ⟨by decide, by decide, by decide, by decide⟩

/-- C1 (amended): a command accepted by `is_readonly_command` contains no
shell-writer operator: no `>` (hence neither `>` nor `>>`), no `&&`, no `;`,
no backtick, no `$(`, and the pipe-to-tee regex `\|\s*tee\b` does not match.
Absence of the lethal patterns themselves is NOT guaranteed (they are
rejected separately by `tool_run_command`). -/
theorem C1_readonly_no_shell_writers (s : String)
    (h : is_readonly_command s = true) :
    s.data.contains '>' = false ∧
    containsSub "&&".data s.data = false ∧
    s.data.contains ';' = false ∧
    s.data.contains (Char.ofNat 96) = false ∧
    containsSub "$(".data s.data = false ∧
    teeMatch s.data = false := by
  simp only [is_readonly_command] at h
  split at h
  · exact absurd h (by simp)
  split at h
  · exact absurd h (by simp)
  split at h
  · exact absurd h (by simp)
  split at h
  · exact absurd h (by simp)
  split at h
  · exact absurd h (by simp)
  rename_i hne hgt hampsemi htee hbqdollar
  rw [Bool.not_eq_true, Bool.or_eq_false_iff] at hampsemi hbqdollar
  obtain ⟨hamp, hsemi⟩ := hampsemi
  obtain ⟨hbq, hdollar⟩ := hbqdollar
  rw [Bool.not_eq_true] at hgt htee
  refine ⟨?_, ?_, ?_, ?_, ?_, ?_⟩
  · cases hv : s.data.contains '>'
    · rfl
    · have := mem_pyStrip (by decide : ('>').isWhitespace = false) (List.mem_of_elem_eq_true hv)
      rw [show (pyStrip s.data).contains '>' = true from
        List.elem_eq_true_of_mem this] at hgt
      exact absurd hgt (by simp)
  · cases hv : containsSub "&&".data s.data
    · rfl
    · rw [containsSub_infix_iff] at hv
      have := infix_pyStrip (by decide : "&&".data = '&' :: ['&'])
        (by decide : ("&&".data).reverse = '&' :: ['&']) (by decide) (by decide) hv
      rw [show containsSub "&&".data (pyStrip s.data) = true from
        (containsSub_infix_iff _ _).mpr this] at hamp
      exact absurd hamp (by simp)
  · cases hv : s.data.contains ';'
    · rfl
    · have := mem_pyStrip (by decide : (';').isWhitespace = false) (List.mem_of_elem_eq_true hv)
      rw [show (pyStrip s.data).contains ';' = true from
        List.elem_eq_true_of_mem this] at hsemi
      exact absurd hsemi (by simp)
  · cases hv : s.data.contains (Char.ofNat 96)
    · rfl
    · have := mem_pyStrip (by decide : (Char.ofNat 96).isWhitespace = false) (List.mem_of_elem_eq_true hv)
      rw [show (pyStrip s.data).contains (Char.ofNat 96) = true from
        List.elem_eq_true_of_mem this] at hbq
      exact absurd hbq (by simp)
  · cases hv : containsSub "$(".data s.data
    · rfl
    · rw [containsSub_infix_iff] at hv
      have := infix_pyStrip (by decide : "$(".data = '$' :: ['('])
        (by decide : ("$(".data).reverse = '(' :: ['$']) (by decide) (by decide) hv
      rw [show containsSub "$(".data (pyStrip s.data) = true from
        (containsSub_infix_iff _ _).mpr this] at hdollar
      exact absurd hdollar (by simp)
  · cases hv : teeMatch s.data
    · rfl
    · rw [teeMatch_pyStrip hv] at htee
      exact absurd htee (by simp)

/-- C1 witness: "git log" is accepted and indeed free of shell writers. -/
theorem C1_witness :
    is_readonly_command "git log" = true ∧
    ("git log".data.contains '>' = false ∧
     containsSub "&&".data "git log".data = false ∧
     "git log".data.contains ';' = false ∧
     "git log".data.contains (Char.ofNat 96) = false ∧
     containsSub "$(".data "git log".data = false ∧
     teeMatch "git log".data = false) :=
  ⟨by decide, C1_readonly_no_shell_writers "git log" (by decide)⟩

/-! ## C6 — `src/backend/services/mcp/permission_bridge.py` -/

/-- `get_mcp_server_permission_key` (permission_bridge.py line 20). -/
def get_mcp_server_permission_key (server_slug : String) : String :=
  "mcp_" ++ server_slug

/-- `get_mcp_tool_permission_key` (permission_bridge.py line 25). -/
def get_mcp_tool_permission_key (server_slug tool_name : String) : String :=
  "mcp_" ++ server_slug ++ "_" ++ tool_name

/-- `check_mcp_permission` (permission_bridge.py lines 30-71).  The
permission map is an association list (`none` = Python `None`); Python's
`if server_permission_map:` is a non-`None` non-empty test, and
`if mapped_key and ...` treats the empty string as absent. -/
def check_mcp_permission (server_slug tool_name : String)
    (project_permissions : List String)
    (server_permission_map : Option (List (String × String))) : Bool :=
  let server_key := get_mcp_server_permission_key server_slug
  if ! project_permissions.contains server_key then false
  else
    match server_permission_map with
    | none => true
    | some m =>
      if m.isEmpty then true
      else
        match m.lookup tool_name with
        | none => true
        | some mapped_key =>
          if mapped_key ≠ "" && ! project_permissions.contains mapped_key then
            false
          else true

/-- C6's sentence, verbatim: permitted iff the server key is granted and
(no permission-map entry for the tool, or the mapped key is granted). -/
def mcpPermissionClaim (server_slug tool_name : String)
    (project_permissions : List String)
    (server_permission_map : Option (List (String × String))) : Prop :=
  get_mcp_server_permission_key server_slug ∈ project_permissions ∧
    ∀ mapped_key,
      (server_permission_map.getD []).lookup tool_name = some mapped_key →
      mapped_key ∈ project_permissions

/-- C6: the claim as stated fails when the permission map maps the tool to
the empty string: Python's truthiness test skips the check, so the call is
permitted although the mapped key is not in the permission list. -/
theorem C6_counterexample :
    check_mcp_permission "s" "t" ["mcp_s"] (some [("t", "")]) = true ∧
    ¬ mcpPermissionClaim "s" "t" ["mcp_s"] (some [("t", "")]) := by
  constructor
  · decide
  · intro h
    have h2 := h.2 "" (by decide)
    simp at h2

/-- C6 (amended): `check_mcp_permission` returns true iff `mcp_<slug>` is in
the permission list and the permission map either has no entry for the tool,
or maps it to the empty string, or maps it to a granted key. -/
theorem C6_check_mcp_permission_iff (server_slug tool_name : String)
    (project_permissions : List String)
    (server_permission_map : Option (List (String × String))) :
    check_mcp_permission server_slug tool_name project_permissions
        server_permission_map = true ↔
      (get_mcp_server_permission_key server_slug ∈ project_permissions ∧
        ∀ mapped_key,
          (server_permission_map.getD []).lookup tool_name = some mapped_key →
          (mapped_key = "" ∨ mapped_key ∈ project_permissions)) := by
  simp only [check_mcp_permission]
  by_cases hs : project_permissions.contains (get_mcp_server_permission_key server_slug)
  · have hsm : get_mcp_server_permission_key server_slug ∈ project_permissions :=
      List.mem_of_elem_eq_true hs
    rw [if_neg (by simp [hsm])]
    cases server_permission_map with
    | none => simp [hsm, List.lookup]
    | some m =>
      simp only [Option.getD_some]
      by_cases hm : m.isEmpty
      · rw [List.isEmpty_iff] at hm
        subst hm
        simp [hsm, List.lookup]
      · rw [if_neg (by simpa using hm)]
        cases hl : m.lookup tool_name with
        | none => simp [hl, hsm]
        | some mapped_key =>
          simp only [hl]
          by_cases hw : mapped_key = ""
          · subst hw
            simp [hsm]
          · by_cases hp : project_permissions.contains mapped_key
            · have hpm : mapped_key ∈ project_permissions :=
                List.mem_of_elem_eq_true hp
              rw [if_neg (by simp [hpm])]
              simp only [true_iff]
              refine ⟨hsm, ?_⟩
              rintro k hk
              cases hk
              exact Or.inr hpm
            · have hpn : mapped_key ∉ project_permissions :=
                fun hmem => hp (List.elem_eq_true_of_mem hmem)
              rw [if_pos (by simp [hw, hpn])]
              constructor
              · intro hcontra
                exact absurd hcontra (by simp)
              · rintro ⟨-, hall⟩
                rcases hall mapped_key rfl with rfl | hmem
                · exact absurd rfl hw
                · exact absurd hmem hpn
  · have hsn : get_mcp_server_permission_key server_slug ∉ project_permissions :=
      fun hmem => hs (List.elem_eq_true_of_mem hmem)
    rw [if_pos (by simp [hsn])]
    constructor
    · intro hcontra
      exact absurd hcontra (by simp)
    · rintro ⟨hmem, -⟩
      exact absurd hmem hsn

/-- C6 witness for the amended iff at a concrete grant. -/
theorem C6_witness :
    check_mcp_permission "github" "get_issue" ["mcp_github"] none = true ∧
    (get_mcp_server_permission_key "github" ∈ ["mcp_github"] ∧
      ∀ mapped_key,
        ((none : Option (List (String × String))).getD []).lookup "get_issue" =
          some mapped_key →
        (mapped_key = "" ∨ mapped_key ∈ ["mcp_github"])) := by
  constructor
  · decide
  · exact (C6_check_mcp_permission_iff "github" "get_issue" ["mcp_github"] none).mp
      (by decide)

/-! ## C7 — `src/backend/services/mcp/tool_adapter.py` -/

/-- Python `rest.split(sep, 1)` for a non-empty `sep` that occurs in the
text: split at the first occurrence.  `none` models "`sep` not in text". -/
def splitFirstAt (sep : List Char) : List Char → Option (List Char × List Char)
  | [] => none
  | c :: t =>
    if sep.isPrefixOf (c :: t) then some ([], (c :: t).drop sep.length)
    else
      match splitFirstAt sep t with
      | some (p, q) => some (c :: p, q)
      | none => none

/-- `make_studio_tool_name` (tool_adapter.py line 43):
`mcp_<slug>__<tool>`. -/
def make_studio_tool_name (server_slug mcp_tool_name : String) : String :=
  "mcp_" ++ server_slug ++ "__" ++ mcp_tool_name

/-- `parse_studio_tool_name` (tool_adapter.py lines 48-65). -/
def parse_studio_tool_name (studio_name : String) : Option (String × String) :=
  if ! "mcp_".data.isPrefixOf studio_name.data then none
  else
    let rest := studio_name.data.drop 4
    match splitFirstAt "__".data rest with
    | none => none
    | some (p, q) => some (String.mk p, String.mk q)

/-- MCP tool definition: the dict keys read by `mcp_tool_to_openai`.
`none` models an absent key. -/
structure MCPToolDef where
  name : Option String
  description : Option String
  inputSchemaType : Option String
  inputSchemaProperties : Option (List (String × String))
  inputSchemaRequired : Option (List String)
deriving DecidableEq

/-- OpenAI function-calling `parameters` object. -/
structure OpenAIParams where
  ptype : String
  properties : List (String × String)
  required : Option (List String)
deriving DecidableEq

/-- OpenAI function-calling tool definition (`{"type": "function", ...}`). -/
structure OpenAIToolDef where
  ttype : String
  functionName : String
  functionDescription : String
  functionParameters : OpenAIParams
deriving DecidableEq

/-- `mcp_tool_to_openai` (tool_adapter.py lines 73-111). -/
def mcp_tool_to_openai (mcp_tool : MCPToolDef) (server_slug : String)
    (descPre : String) : OpenAIToolDef :=
  let mcp_name := mcp_tool.name.getD "unknown"
  let studio_name := make_studio_tool_name server_slug mcp_name
  let description0 := mcp_tool.description.getD ""
  let description :=
    if descPre ≠ "" then descPre ++ description0
    else description0
  { ttype := "function"
    functionName := studio_name
    functionDescription := description
    functionParameters :=
      { ptype := mcp_tool.inputSchemaType.getD "object"
        properties := mcp_tool.inputSchemaProperties.getD []
        required := mcp_tool.inputSchemaRequired } }

/-- `splitFirstAt "__"` recovers the two halves when the left half contains
no `__` and does not end in `_`. -/
theorem splitFirstAt_boundary (pre post : List Char)
    (hni : containsSub "__".data pre = false)
    (hlast : pre.getLast? ≠ some '_') :
    splitFirstAt "__".data (pre ++ '_' :: '_' :: post) = some (pre, post) := by
  induction pre with
  | nil =>
    simp [splitFirstAt, List.isPrefixOf]
  | cons c p ih =>
    have hsub : containsSub "__".data p = false := by
      have := hni
      simp only [containsSub, Bool.or_eq_false_iff] at this
      exact this.2
    rw [List.cons_append]
    rw [splitFirstAt]
    have hnp : ("__".data.isPrefixOf (c :: (p ++ '_' :: '_' :: post))) = false := by
      cases hc : c == '_'
      · have hc2 : ('_' == c) = false := by
          rw [beq_eq_false_iff_ne] at hc ⊢
          exact fun h => hc h.symm
        simp [List.isPrefixOf, hc2]
      · rw [beq_iff_eq] at hc
        subst hc
        cases p with
        | nil =>
          exact absurd rfl hlast
        | cons d p2 =>
          have hd : (d == '_') = false := by
            cases hd2 : d == '_'
            · rfl
            · rw [beq_iff_eq] at hd2
              subst hd2
              have := hni
              simp [containsSub, List.isPrefixOf] at this
          have hd3 : ('_' == d) = false := by
            rw [beq_eq_false_iff_ne] at hd ⊢
            exact fun h => hd h.symm
          simp [List.isPrefixOf, hd3]
    rw [if_neg (by simp [hnp])]
    have hlast2 : p.getLast? ≠ some '_' := by
      cases p with
      | nil => simp
      | cons d p2 =>
        rw [List.getLast?_cons_cons] at hlast
        exact hlast
    rw [ih hsub hlast2]

/-- C7: the round trip fails when the slug itself contains `__`: parsing
splits at the first `__`, inside the slug. -/
theorem C7_counterexample :
    parse_studio_tool_name
        (mcp_tool_to_openai
          ⟨some "t", some "", none, none, none⟩ "a__b" "").functionName =
      some ("a", "b__t") ∧
    some ("a", "b__t") ≠ some ("a__b", "t") := by
  constructor
  · decide
  · decide

/-- C7 (amended): for every slug that contains no `__` and does not end in
`_`, and every MCP tool definition carrying a name, converting with
`mcp_tool_to_openai` and parsing the resulting studio name yields exactly
`(slug, tool name)`. -/
theorem C7_roundtrip (server_slug n descPre : String)
    (mcp_tool : MCPToolDef)
    (hname : mcp_tool.name = some n)
    (hni : containsSub "__".data server_slug.data = false)
    (hlast : server_slug.data.getLast? ≠ some '_') :
    parse_studio_tool_name
        (mcp_tool_to_openai mcp_tool server_slug descPre).functionName =
      some (server_slug, n) := by
  have hfn : (mcp_tool_to_openai mcp_tool server_slug
      descPre).functionName =
      "mcp_" ++ server_slug ++ "__" ++ n := by
    simp [mcp_tool_to_openai, make_studio_tool_name, hname]
  rw [hfn]
  unfold parse_studio_tool_name
  have hdata : ("mcp_" ++ server_slug ++ "__" ++ n).data =
      "mcp_".data ++ (server_slug.data ++ '_' :: '_' :: n.data) := by
    simp [String.data_append]
  rw [if_neg ?hpre]
  case hpre =>
    rw [hdata]
    have : "mcp_".data.isPrefixOf
        ("mcp_".data ++ (server_slug.data ++ '_' :: '_' :: n.data)) = true := by
      rw [List.isPrefixOf_iff_prefix]
      exact List.prefix_append _ _
    simp [this]
  rw [hdata]
  have hdrop : ("mcp_".data ++ (server_slug.data ++ '_' :: '_' :: n.data)).drop 4 =
      server_slug.data ++ '_' :: '_' :: n.data := by
    have h4 : 4 = "mcp_".data.length := by decide
    rw [h4, List.drop_left]
  rw [hdrop]
  have hsplit := splitFirstAt_boundary server_slug.data n.data hni hlast
  simp only [hsplit]

/-- C7 witness at a concrete well-formed slug. -/
theorem C7_witness :
    parse_studio_tool_name
        (mcp_tool_to_openai
          ⟨some "create_issue", some "Create a new issue", some "object",
            none, none⟩ "github" "[GitHub] ").functionName =
      some ("github", "create_issue") :=
  C7_roundtrip "github" "create_issue" "[GitHub] " _ rfl (by decide) (by decide)

/-! ## C5 — `src/backend/ai/providers/github_models.py` -/

/-- A value stored in the `error_meta` dict. -/
inductive MetaVal
  | i (n : Int)
  | s (v : String)
deriving DecidableEq

/-- Python `str.lower()` on a character list (the matched phrases are
ASCII, so ASCII lowering suffices). -/
def pyLower (l : List Char) : List Char := l.map Char.toLower

/-- Python dict assignment `meta[k] = v`: overwrite in place if the key
exists (keeping its position), else append. -/
def metaSet (k : String) (v : MetaVal) :
    List (String × MetaVal) → List (String × MetaVal)
  | [] => [(k, v)]
  | (k2, v2) :: t => if k2 = k then (k2, v) :: t else (k2, v2) :: metaSet k v t

/-- The numeric regex searches inside the branch bodies of
`_parse_error_meta` (lines 272-297), as oracles returning the captured
digit/unit groups (`none` = no match); the keys they are stored under
are fixed by the code and built by the embedding itself. -/
structure ErrorRegexOracles where
  rateLimitOf : String → Option (String × String)
  perUnit : String → Option (String × String × String)
  waitSeconds : String → Option String
  maxContextLen : String → Option String
  maxSizeTokens : String → Option String
  requestedTokens : String → Option String

/-- Concrete oracle instance: none of the numeric regexes matched. -/
def noExtras : ErrorRegexOracles :=
  ⟨fun _ => none, fun _ => none, fun _ => none, fun _ => none,
    fun _ => none, fun _ => none⟩

/-- Python `int(...)` on a regex digit group. -/
def groupInt (g : String) : Int := (g.toNat?.getD 0 : ℕ)

/-- `unit_map.get(m.group(3).lower(), 1)` (github_models.py lines
279-280). -/
def unitSecs (u : String) : Int :=
  if String.mk (pyLower u.data) = "second" then 1
  else if String.mk (pyLower u.data) = "minute" then 60
  else if String.mk (pyLower u.data) = "hour" then 3600
  else 1

/-- The `rate_limit` branch extras (github_models.py lines 272-286). -/
def rateLimitExtras (o : ErrorRegexOracles) (e : String)
    (meta : List (String × MetaVal)) : List (String × MetaVal) :=
  let meta := match o.rateLimitOf e with
    | some g =>
      metaSet "rate_limit_seconds" (MetaVal.i (groupInt g.2))
        (metaSet "rate_limit_count" (MetaVal.i (groupInt g.1))
          (metaSet "rate_limit" (MetaVal.s (g.1 ++ " per " ++ g.2 ++ "s")) meta))
    | none => meta
  let meta := match o.perUnit e with
    | some g =>
      if (meta.map Prod.fst).contains "rate_limit" then meta
      else
        metaSet "rate_limit_seconds"
          (MetaVal.i (groupInt g.2.1 * unitSecs g.2.2))
          (metaSet "rate_limit_count" (MetaVal.i (groupInt g.1))
            (metaSet "rate_limit"
              (MetaVal.s (g.1 ++ " per " ++
                toString (groupInt g.2.1 * unitSecs g.2.2) ++ "s")) meta))
    | none => meta
  match o.waitSeconds e with
  | some g => metaSet "wait_seconds" (MetaVal.i (groupInt g)) meta
  | none => meta

/-- The `context_overflow` branch extras (github_models.py lines
289-297). -/
def contextExtras (o : ErrorRegexOracles) (e : String)
    (meta : List (String × MetaVal)) : List (String × MetaVal) :=
  let meta := match o.maxContextLen e with
    | some g => metaSet "max_context_tokens" (MetaVal.i (groupInt g)) meta
    | none => meta
  let meta := match o.maxSizeTokens e with
    | some g => metaSet "max_context_tokens" (MetaVal.i (groupInt g)) meta
    | none => meta
  match o.requestedTokens e with
  | some g => metaSet "requested_tokens" (MetaVal.i (groupInt g)) meta
  | none => meta

/-- `_parse_error_meta` (github_models.py lines 256-303) as the ordered
key/value list of the returned dict. -/
def _parse_error_meta (oracles : ErrorRegexOracles) (status_code : Int)
    (error_text model provider_type : String) : List (String × MetaVal) :=
  let base := [("status_code", MetaVal.i status_code), ("model", MetaVal.s model)]
  let base := if provider_type ≠ "" then
      base ++ [("provider_type", MetaVal.s provider_type)]
    else base
  let lower := pyLower error_text.data
  if status_code == 429 || containsSub "rate limit".data lower then
    rateLimitExtras oracles error_text
      (base ++ [("error_type", MetaVal.s "rate_limit")])
  else if containsSub "context length".data lower ||
      containsSub "too large".data lower ||
      containsSub "max_tokens".data lower then
    contextExtras oracles error_text
      (base ++ [("error_type", MetaVal.s "context_overflow")])
  else if status_code == 401 || status_code == 403 then
    base ++ [("error_type", MetaVal.s "auth_error")]
  else
    base ++ [("error_type", MetaVal.s "unknown")]

theorem metaSet_lookup_ne (k0 k : String) (v : MetaVal)
    (l : List (String × MetaVal)) (h : k0 ≠ k) :
    (metaSet k v l).lookup k0 = l.lookup k0 := by
  induction l with
  | nil =>
    have hb : (k0 == k) = false := by simp [h]
    simp [metaSet, List.lookup, hb]
  | cons p t ih =>
    obtain ⟨k2, v2⟩ := p
    by_cases he : k2 = k
    · subst he
      have hb : (k0 == k2) = false := by simp [h]
      simp [metaSet, List.lookup, hb]
    · simp only [metaSet, if_neg he, List.lookup]
      cases hbe : (k0 == k2) <;> simp [hbe, ih]

theorem metaSet_mem_keys (k0 k : String) (v : MetaVal)
    (l : List (String × MetaVal)) (h : k0 ≠ k) :
    k0 ∈ (metaSet k v l).map Prod.fst ↔ k0 ∈ l.map Prod.fst := by
  induction l with
  | nil => simp [metaSet, h]
  | cons p t ih =>
    obtain ⟨k2, v2⟩ := p
    by_cases he : k2 = k
    · subst he
      simp [metaSet]
    · simp [metaSet, if_neg he, ih]

theorem rateLimitExtras_lookup (o : ErrorRegexOracles) (e : String)
    (meta : List (String × MetaVal)) (k0 : String)
    (h1 : k0 ≠ "rate_limit") (h2 : k0 ≠ "rate_limit_count")
    (h3 : k0 ≠ "rate_limit_seconds") (h4 : k0 ≠ "wait_seconds") :
    (rateLimitExtras o e meta).lookup k0 = meta.lookup k0 := by
  rcases hro : o.rateLimitOf e with _ | g1 <;>
  rcases hpu : o.perUnit e with _ | g2 <;>
  rcases hws : o.waitSeconds e with _ | g3 <;>
    simp only [rateLimitExtras, hro, hpu, hws] <;>
    first
    | (split <;> simp [metaSet_lookup_ne, h1, h2, h3, h4])
    | simp [metaSet_lookup_ne, h1, h2, h3, h4]

theorem rateLimitExtras_mem (o : ErrorRegexOracles) (e : String)
    (meta : List (String × MetaVal)) (k0 : String)
    (h1 : k0 ≠ "rate_limit") (h2 : k0 ≠ "rate_limit_count")
    (h3 : k0 ≠ "rate_limit_seconds") (h4 : k0 ≠ "wait_seconds") :
    k0 ∈ (rateLimitExtras o e meta).map Prod.fst ↔ k0 ∈ meta.map Prod.fst := by
  rcases hro : o.rateLimitOf e with _ | g1 <;>
  rcases hpu : o.perUnit e with _ | g2 <;>
  rcases hws : o.waitSeconds e with _ | g3 <;>
    simp only [rateLimitExtras, hro, hpu, hws]
  all_goals try split
  all_goals simp only [metaSet_mem_keys, h1, h2, h3, h4, ne_eq,
    not_false_eq_true]

theorem contextExtras_lookup (o : ErrorRegexOracles) (e : String)
    (meta : List (String × MetaVal)) (k0 : String)
    (h1 : k0 ≠ "max_context_tokens") (h2 : k0 ≠ "requested_tokens") :
    (contextExtras o e meta).lookup k0 = meta.lookup k0 := by
  rcases hm1 : o.maxContextLen e with _ | g1 <;>
  rcases hm2 : o.maxSizeTokens e with _ | g2 <;>
  rcases hrt : o.requestedTokens e with _ | g3 <;>
    simp only [contextExtras, hm1, hm2, hrt] <;>
    simp [metaSet_lookup_ne, h1, h2]

theorem contextExtras_mem (o : ErrorRegexOracles) (e : String)
    (meta : List (String × MetaVal)) (k0 : String)
    (h1 : k0 ≠ "max_context_tokens") (h2 : k0 ≠ "requested_tokens") :
    k0 ∈ (contextExtras o e meta).map Prod.fst ↔ k0 ∈ meta.map Prod.fst := by
  rcases hm1 : o.maxContextLen e with _ | g1 <;>
  rcases hm2 : o.maxSizeTokens e with _ | g2 <;>
  rcases hrt : o.requestedTokens e with _ | g3 <;>
    simp only [contextExtras, hm1, hm2, hrt]
  all_goals simp only [metaSet_mem_keys, h1, h2, ne_eq,
    not_false_eq_true]

/-- C5: the claim as stated is false: with the default `provider_type=""`
the returned meta has no `provider_type` key (the code only adds it for a
truthy argument). -/
theorem C5_counterexample :
    "provider_type" ∉ (_parse_error_meta noExtras 500 "" "m" "").map Prod.fst ∧
    (_parse_error_meta noExtras 500 "" "m" "").map Prod.fst =
      ["status_code", "model", "error_type"] := by
  constructor
  · decide
  · decide

/-- C5 (amended): `_parse_error_meta` assigns `error_type` by the fixed
priority order (rate_limit, then context_overflow, then auth_error, then
unknown; the first matching class wins), the returned meta always
contains `status_code` and `model`, and it contains `provider_type`
exactly when the `provider_type` argument is non-empty (it is omitted
for the default empty argument). -/
theorem C5_parse_error_meta_spec (oracles : ErrorRegexOracles)
    (status_code : Int) (error_text model provider_type : String) :
    (((status_code = 429 ∨
        containsSub "rate limit".data (pyLower error_text.data) = true) →
      (_parse_error_meta oracles status_code error_text model
          provider_type).lookup "error_type" = some (MetaVal.s "rate_limit")) ∧
     ((status_code ≠ 429 ∧
        containsSub "rate limit".data (pyLower error_text.data) = false) →
      (containsSub "context length".data (pyLower error_text.data) = true ∨
        containsSub "too large".data (pyLower error_text.data) = true ∨
        containsSub "max_tokens".data (pyLower error_text.data) = true) →
      (_parse_error_meta oracles status_code error_text model
          provider_type).lookup "error_type" =
        some (MetaVal.s "context_overflow")) ∧
     ((status_code ≠ 429 ∧
        containsSub "rate limit".data (pyLower error_text.data) = false) →
      (containsSub "context length".data (pyLower error_text.data) = false ∧
        containsSub "too large".data (pyLower error_text.data) = false ∧
        containsSub "max_tokens".data (pyLower error_text.data) = false) →
      (status_code = 401 ∨ status_code = 403) →
      (_parse_error_meta oracles status_code error_text model
          provider_type).lookup "error_type" = some (MetaVal.s "auth_error")) ∧
     ((status_code ≠ 429 ∧
        containsSub "rate limit".data (pyLower error_text.data) = false) →
      (containsSub "context length".data (pyLower error_text.data) = false ∧
        containsSub "too large".data (pyLower error_text.data) = false ∧
        containsSub "max_tokens".data (pyLower error_text.data) = false) →
      (status_code ≠ 401 ∧ status_code ≠ 403) →
      (_parse_error_meta oracles status_code error_text model
          provider_type).lookup "error_type" = some (MetaVal.s "unknown"))) ∧
    ((_parse_error_meta oracles status_code error_text model
        provider_type).lookup "status_code" = some (MetaVal.i status_code) ∧
     (_parse_error_meta oracles status_code error_text model
        provider_type).lookup "model" = some (MetaVal.s model) ∧
     ("provider_type" ∈ (_parse_error_meta oracles status_code error_text model
        provider_type).map Prod.fst ↔ provider_type ≠ "")) := by
  constructor
  · refine ⟨?_, ?_, ?_, ?_⟩
    · intro h
      have hc1 : (status_code == 429 ||
          containsSub "rate limit".data (pyLower error_text.data)) = true := by
        rcases h with h | h
        · simp [h]
        · simp [h]
      simp only [_parse_error_meta, hc1, if_true]
      rw [rateLimitExtras_lookup oracles error_text _ "error_type"
        (by decide) (by decide) (by decide) (by decide)]
      by_cases hp : provider_type = "" <;> simp [hp, List.lookup]
    · rintro ⟨hne, hcf⟩ h2
      have hc1 : (status_code == 429 ||
          containsSub "rate limit".data (pyLower error_text.data)) = false := by
        simp [hcf, hne]
      have hc2 : (containsSub "context length".data (pyLower error_text.data) ||
          containsSub "too large".data (pyLower error_text.data) ||
          containsSub "max_tokens".data (pyLower error_text.data)) = true := by
        rcases h2 with h | h | h <;> simp [h]
      simp only [_parse_error_meta, hc1, hc2, Bool.false_eq_true, if_false,
        if_true]
      rw [contextExtras_lookup oracles error_text _ "error_type"
        (by decide) (by decide)]
      by_cases hp : provider_type = "" <;> simp [hp, List.lookup]
    · rintro ⟨hne, hcf⟩ ⟨hc2a, hc2b, hc2c⟩ h3
      have hc1 : (status_code == 429 ||
          containsSub "rate limit".data (pyLower error_text.data)) = false := by
        simp [hcf, hne]
      have hc2 : (containsSub "context length".data (pyLower error_text.data) ||
          containsSub "too large".data (pyLower error_text.data) ||
          containsSub "max_tokens".data (pyLower error_text.data)) = false := by
        simp [hc2a, hc2b, hc2c]
      have hc3 : (status_code == 401 || status_code == 403) = true := by
        rcases h3 with h | h <;> simp [h]
      simp only [_parse_error_meta, hc1, hc2, hc3]
      by_cases hp : provider_type = "" <;> simp [hp, List.lookup]
    · rintro ⟨hne, hcf⟩ ⟨hc2a, hc2b, hc2c⟩ ⟨h3a, h3b⟩
      have hc1 : (status_code == 429 ||
          containsSub "rate limit".data (pyLower error_text.data)) = false := by
        simp [hcf, hne]
      have hc2 : (containsSub "context length".data (pyLower error_text.data) ||
          containsSub "too large".data (pyLower error_text.data) ||
          containsSub "max_tokens".data (pyLower error_text.data)) = false := by
        simp [hc2a, hc2b, hc2c]
      have hc3 : (status_code == 401 || status_code == 403) = false := by
        simp [h3a, h3b]
      simp only [_parse_error_meta, hc1, hc2, hc3]
      by_cases hp : provider_type = "" <;> simp [hp, List.lookup]
  · refine ⟨?_, ?_, ?_⟩
    · simp only [_parse_error_meta]
      by_cases hp : provider_type = "" <;>
        split_ifs <;>
          simp [hp, List.lookup, rateLimitExtras_lookup, contextExtras_lookup]
    · simp only [_parse_error_meta]
      by_cases hp : provider_type = "" <;>
        split_ifs <;>
          simp [hp, List.lookup, rateLimitExtras_lookup, contextExtras_lookup]
    · simp only [_parse_error_meta]
      by_cases hp : provider_type = ""
      · subst hp
        rw [if_neg (show ¬(("" : String) ≠ "") from by simp)]
        split_ifs with hb1 hb2 hb3
        · rw [rateLimitExtras_mem oracles error_text _ "provider_type"
            (by decide) (by decide) (by decide) (by decide)]
          simp
        · rw [contextExtras_mem oracles error_text _ "provider_type"
            (by decide) (by decide)]
          simp
        · simp
        · simp
      · rw [if_pos hp]
        split_ifs with hb1 hb2 hb3
        · rw [rateLimitExtras_mem oracles error_text _ "provider_type"
            (by decide) (by decide) (by decide) (by decide)]
          simp [hp]
        · rw [contextExtras_mem oracles error_text _ "provider_type"
            (by decide) (by decide)]
          simp [hp]
        · simp [hp]
        · simp [hp]

/-- C5 witness for the amended specification at a concrete 429 error:
the rate-limit class wins and `provider_type` is present for the
non-empty argument. -/
theorem C5_witness :
    (_parse_error_meta noExtras 429 "" "gpt-4o" "copilot").lookup "error_type" =
      some (MetaVal.s "rate_limit") ∧
    ("provider_type" ∈
      (_parse_error_meta noExtras 429 "" "gpt-4o" "copilot").map Prod.fst ↔
      ("copilot" : String) ≠ "") := by
  have h := C5_parse_error_meta_spec noExtras 429 "" "gpt-4o" "copilot"
  exact ⟨h.1.1 (Or.inl rfl), h.2.2.2⟩

/-! ## C8 — `src/backend/ai/observability/budget.py` -/

/-- Banker's rounding to an integer (Python `round`). -/
def roundHalfEven (x : ℚ) : ℤ :=
  let fl := ⌊x⌋
  let fr := x - fl
  if fr < 1/2 then fl
  else if 1/2 < fr then fl + 1
  else if Even fl then fl else fl + 1

/-- Python `round(x, n)` on exact rationals (floats are modelled as
rationals; binary-float ties may differ in the last digit). -/
def pyRound (n : ℕ) (x : ℚ) : ℚ := (roundHalfEven (x * 10 ^ n) : ℚ) / 10 ^ n

/-- `BudgetLimit` (budget.py lines 19-24); `0` means unlimited. -/
structure BudgetLimit where
  max_tokens : Int
  max_cost_cents : ℚ
  period_seconds : Int
deriving DecidableEq

/-- `BudgetUsage` (budget.py lines 27-33). -/
structure BudgetUsage where
  tokens_used : Int
  cost_cents : ℚ
  requests : Int
  window_start : ℚ
deriving DecidableEq

/-- `BudgetManager` state: the `_limits` and `_usage` dicts. -/
structure BudgetManager where
  limits : List (String × BudgetLimit)
  usage : List (String × BudgetUsage)

/-- The per-scope detail dict built by `_check_scope` (lines 180-204);
`none` models an absent key. -/
structure ScopeDetail where
  tokens_used : Int
  cost_cents : ℚ
  requests : Int
  usage_pct : Option ℚ
  limit_tokens : Option Int
  cost_pct : Option ℚ
  limit_cost_cents : Option ℚ
deriving DecidableEq

/-- The base detail dict (budget.py lines 180-184). -/
def baseDetail (usage : BudgetUsage) : ScopeDetail :=
  ⟨usage.tokens_used, pyRound 2 usage.cost_cents, usage.requests,
    none, none, none, none⟩

/-- The token-check block's detail updates (budget.py lines 191-194). -/
def tokenDetail (d : ScopeDetail) (limit : BudgetLimit) (usage : BudgetUsage) :
    ScopeDetail :=
  if limit.max_tokens > 0 then
    { d with
      usage_pct := some (pyRound 1
        ((usage.tokens_used : ℚ) / (limit.max_tokens : ℚ) * 100))
      limit_tokens := some limit.max_tokens }
  else d

/-- The cost-check block's detail updates (budget.py lines 199-202). -/
def costDetail (d : ScopeDetail) (limit : BudgetLimit) (usage : BudgetUsage) :
    ScopeDetail :=
  if limit.max_cost_cents > 0 then
    { d with
      cost_pct := some (pyRound 1
        (usage.cost_cents / limit.max_cost_cents * 100))
      limit_cost_cents := some limit.max_cost_cents }
  else d

/-- `BudgetManager._check_scope` (budget.py lines 176-206). -/
def _check_scope (mgr : BudgetManager) (scope : String) : Bool × ScopeDetail :=
  let usage := (mgr.usage.lookup scope).getD ⟨0, 0, 0, 0⟩
  match mgr.limits.lookup scope with
  | none => (true, { baseDetail usage with usage_pct := some 0 })
  | some limit =>
    if limit.max_tokens = 0 ∧ limit.max_cost_cents = 0 then
      (true, { baseDetail usage with usage_pct := some 0 })
    else
      if limit.max_tokens > 0 ∧ usage.tokens_used ≥ limit.max_tokens then
        (false, tokenDetail (baseDetail usage) limit usage)
      else
        if limit.max_cost_cents > 0 ∧ usage.cost_cents ≥ limit.max_cost_cents then
          (false, costDetail (tokenDetail (baseDetail usage) limit usage) limit usage)
        else
          (true, costDetail (tokenDetail (baseDetail usage) limit usage) limit usage)

/-- The result dict of `check_budget`. -/
structure CheckResult where
  allowed : Bool
  warnings : List String
  details : List (String × ScopeDetail)
deriving DecidableEq

/-- Session leg of `check_budget` (budget.py lines 113-119). -/
def checkSessionLeg (mgr : BudgetManager) (session_id : String)
    (warnings : List String) (details : List (String × ScopeDetail)) :
    CheckResult :=
  if session_id ≠ "" then
    let s := _check_scope mgr ("session:" ++ session_id)
    if !s.1 then ⟨false, ["单次会话 token 上限已达到"], details ++ [("session", s.2)]⟩
    else ⟨true, warnings, details ++ [("session", s.2)]⟩
  else ⟨true, warnings, details⟩

/-- `BudgetManager.check_budget` (budget.py lines 83-119).  The f-string
`{pct:.0f}` is rendered via integer rounding. -/
def check_budget (mgr : BudgetManager) (session_id project_id : String) :
    CheckResult :=
  let g := _check_scope mgr "global"
  if !g.1 then ⟨false, ["全局预算已耗尽"], [("global", g.2)]⟩
  else
    let warnings :=
      if (g.2.usage_pct.getD 0) > 80 then
        ["全局预算已使用 " ++ toString (roundHalfEven (g.2.usage_pct.getD 0)) ++ "%"]
      else []
    if project_id ≠ "" then
      let p := _check_scope mgr ("project:" ++ project_id)
      if !p.1 then
        ⟨false, ["项目 " ++ project_id ++ " 预算已耗尽"],
          [("global", g.2), ("project", p.2)]⟩
      else
        checkSessionLeg mgr session_id warnings
          [("global", g.2), ("project", p.2)]
    else checkSessionLeg mgr session_id warnings [("global", g.2)]

/-- "The scope's recorded usage has reached 100 % of a positive limit", as
C8's sentence states it. -/
def scopeExhausted (mgr : BudgetManager) (scope : String) : Prop :=
  ∃ limit, mgr.limits.lookup scope = some limit ∧
    ((limit.max_tokens > 0 ∧
        ((mgr.usage.lookup scope).getD ⟨0, 0, 0, 0⟩).tokens_used ≥
          limit.max_tokens) ∨
     (limit.max_cost_cents > 0 ∧
        ((mgr.usage.lookup scope).getD ⟨0, 0, 0, 0⟩).cost_cents ≥
          limit.max_cost_cents))

/-- `_check_scope` fails exactly on an exhausted scope. -/
theorem check_scope_false_iff (mgr : BudgetManager) (scope : String) :
    (_check_scope mgr scope).1 = false ↔ scopeExhausted mgr scope := by
  unfold _check_scope scopeExhausted
  cases hl : mgr.limits.lookup scope with
  | none => simp
  | some limit =>
    simp only [Option.some_inj]
    by_cases h0 : limit.max_tokens = 0 ∧ limit.max_cost_cents = 0
    · rw [if_pos h0]
      simp only [Prod.fst]
      constructor
      · intro hc; exact absurd hc (by simp)
      · rintro ⟨l, rfl, (⟨hpos, -⟩ | ⟨hpos, -⟩)⟩
        · rw [h0.1] at hpos; exact absurd hpos (by simp)
        · rw [h0.2] at hpos; exact absurd hpos (by simp)
    · rw [if_neg h0]
      by_cases ht : limit.max_tokens > 0 ∧
          ((mgr.usage.lookup scope).getD ⟨0, 0, 0, 0⟩).tokens_used ≥
            limit.max_tokens
      · rw [if_pos ht]
        simp only [true_iff]
        exact ⟨limit, rfl, Or.inl ht⟩
      · rw [if_neg ht]
        by_cases hc : limit.max_cost_cents > 0 ∧
            ((mgr.usage.lookup scope).getD ⟨0, 0, 0, 0⟩).cost_cents ≥
              limit.max_cost_cents
        · rw [if_pos hc]
          simp only [true_iff]
          exact ⟨limit, rfl, Or.inr hc⟩
        · rw [if_neg hc]
          constructor
          · intro hfalse; exact absurd hfalse (by simp)
          · rintro ⟨l, rfl, hor⟩
            rcases hor with h | h
            · exact absurd h ht
            · exact absurd h hc

/-- `costDetail` never touches `usage_pct`. -/
theorem costDetail_usage_pct (d : ScopeDetail) (limit : BudgetLimit)
    (usage : BudgetUsage) : (costDetail d limit usage).usage_pct = d.usage_pct := by
  unfold costDetail
  split <;> rfl

/-- `tokenDetail` sets `usage_pct` exactly for a positive token limit. -/
theorem tokenDetail_usage_pct (d : ScopeDetail) (limit : BudgetLimit)
    (usage : BudgetUsage) :
    (tokenDetail d limit usage).usage_pct =
      if limit.max_tokens > 0 then
        some (pyRound 1 ((usage.tokens_used : ℚ) / (limit.max_tokens : ℚ) * 100))
      else d.usage_pct := by
  unfold tokenDetail
  split <;> rfl

/-- The stored global `usage_pct` exceeds 80 iff the scope has a positive
token limit whose rounded usage percentage exceeds 80. -/
theorem check_scope_usage_pct (mgr : BudgetManager) (scope : String) :
    ((_check_scope mgr scope).2.usage_pct.getD 0 > 80) ↔
      (∃ limit, mgr.limits.lookup scope = some limit ∧
        limit.max_tokens > 0 ∧
        pyRound 1
            ((((mgr.usage.lookup scope).getD ⟨0, 0, 0, 0⟩).tokens_used : ℚ) /
              (limit.max_tokens : ℚ) * 100) > 80) := by
  unfold _check_scope
  cases hl : mgr.limits.lookup scope with
  | none =>
    simp only [Option.getD_some]
    constructor
    · intro hc; exact absurd hc (by norm_num)
    · rintro ⟨l, hsome, -⟩; cases hsome
  | some limit =>
    simp only [Option.some_inj]
    by_cases h0 : limit.max_tokens = 0 ∧ limit.max_cost_cents = 0
    · rw [if_pos h0]
      simp only [Option.getD_some]
      constructor
      · intro hc; exact absurd hc (by norm_num)
      · rintro ⟨l, rfl, hpos, -⟩
        rw [h0.1] at hpos; exact absurd hpos (by norm_num)
    · rw [if_neg h0]
      by_cases hmt : limit.max_tokens > 0
      · have hup :
            ∀ b : Bool × ScopeDetail,
              b.2.usage_pct =
                some (pyRound 1
                  ((((mgr.usage.lookup scope).getD ⟨0, 0, 0, 0⟩).tokens_used : ℚ) /
                    (limit.max_tokens : ℚ) * 100)) →
              (b.2.usage_pct.getD 0 > 80 ↔
                pyRound 1
                  ((((mgr.usage.lookup scope).getD ⟨0, 0, 0, 0⟩).tokens_used : ℚ) /
                    (limit.max_tokens : ℚ) * 100) > 80) := by
          intro b hb
          rw [hb, Option.getD_some]
        by_cases ht : limit.max_tokens > 0 ∧
            ((mgr.usage.lookup scope).getD ⟨0, 0, 0, 0⟩).tokens_used ≥
              limit.max_tokens
        · rw [if_pos ht]
          rw [hup _ (by rw [tokenDetail_usage_pct, if_pos hmt])]
          constructor
          · intro hg; exact ⟨limit, rfl, hmt, hg⟩
          · rintro ⟨l, heq, -, hg⟩; cases heq; exact hg
        · rw [if_neg ht]
          by_cases hc : limit.max_cost_cents > 0 ∧
              ((mgr.usage.lookup scope).getD ⟨0, 0, 0, 0⟩).cost_cents ≥
                limit.max_cost_cents
          · rw [if_pos hc]
            rw [hup _ (by
              rw [costDetail_usage_pct, tokenDetail_usage_pct, if_pos hmt])]
            constructor
            · intro hg; exact ⟨limit, rfl, hmt, hg⟩
            · rintro ⟨l, heq, -, hg⟩; cases heq; exact hg
          · rw [if_neg hc]
            rw [hup _ (by
              rw [costDetail_usage_pct, tokenDetail_usage_pct, if_pos hmt])]
            constructor
            · intro hg; exact ⟨limit, rfl, hmt, hg⟩
            · rintro ⟨l, heq, -, hg⟩; cases heq; exact hg
      · have hnone :
            ∀ b : Bool × ScopeDetail, b.2.usage_pct = none →
              ¬ (b.2.usage_pct.getD 0 > 80) := by
          intro b hb
          rw [hb]
          norm_num
        have hbase : (baseDetail ((mgr.usage.lookup scope).getD ⟨0, 0, 0, 0⟩)).usage_pct = none := rfl
        by_cases ht : limit.max_tokens > 0 ∧
            ((mgr.usage.lookup scope).getD ⟨0, 0, 0, 0⟩).tokens_used ≥
              limit.max_tokens
        · exact absurd ht.1 hmt
        · rw [if_neg ht]
          by_cases hc : limit.max_cost_cents > 0 ∧
              ((mgr.usage.lookup scope).getD ⟨0, 0, 0, 0⟩).cost_cents ≥
                limit.max_cost_cents
          · rw [if_pos hc]
            constructor
            · intro hg
              exact absurd hg (hnone _ (by
                rw [costDetail_usage_pct, tokenDetail_usage_pct, if_neg hmt, hbase]))
            · rintro ⟨l, heq, hpos, -⟩; cases heq; exact absurd hpos hmt
          · rw [if_neg hc]
            constructor
            · intro hg
              exact absurd hg (hnone _ (by
                rw [costDetail_usage_pct, tokenDetail_usage_pct, if_neg hmt, hbase]))
            · rintro ⟨l, heq, hpos, -⟩; cases heq; exact absurd hpos hmt

/-- `checkSessionLeg` refuses exactly on an exhausted session scope and
passes `warnings` through unchanged otherwise. -/
theorem checkSessionLeg_spec (mgr : BudgetManager) (session_id : String)
    (warnings : List String) (details : List (String × ScopeDetail)) :
    ((checkSessionLeg mgr session_id warnings details).allowed = false ↔
      (session_id ≠ "" ∧ scopeExhausted mgr ("session:" ++ session_id))) ∧
    ((checkSessionLeg mgr session_id warnings details).allowed = true →
      (checkSessionLeg mgr session_id warnings details).warnings = warnings) := by
  unfold checkSessionLeg
  by_cases hs : session_id ≠ ""
  · rw [if_pos hs]
    cases hv : (_check_scope mgr ("session:" ++ session_id)).1
    · simp only [hv, Bool.not_false, if_true]
      constructor
      · simp only [true_iff]
        exact ⟨hs, (check_scope_false_iff mgr _).mp hv⟩
      · intro hcontra
        exact absurd hcontra (by simp)
    · simp only [hv, Bool.not_true, Bool.false_eq_true, if_false]
      constructor
      · constructor
        · intro hcontra; exact absurd hcontra (by simp)
        · rintro ⟨-, hex⟩
          have := (check_scope_false_iff mgr ("session:" ++ session_id)).mpr hex
          rw [this] at hv
          exact absurd hv (by simp)
      · intro _; trivial
  · rw [if_neg hs]
    constructor
    · constructor
      · intro hcontra; exact absurd hcontra (by simp)
      · rintro ⟨hne, -⟩; exact absurd hne hs
    · intro _; trivial

/-- C8: the claim as stated is false: a session scope at 90 % of its token
limit produces no warning (the code only warns for the global scope, and
only strictly above 80 %). -/
theorem C8_counterexample :
    (check_budget ⟨[("session:s1", ⟨100, 0, 0⟩)], [("session:s1", ⟨90, 0, 1, 0⟩)]⟩
        "s1" "").allowed = true ∧
    (check_budget ⟨[("session:s1", ⟨100, 0, 0⟩)], [("session:s1", ⟨90, 0, 1, 0⟩)]⟩
        "s1" "").warnings = [] ∧
    ((90 : ℚ) / 100 * 100 ≥ 80) := by
  refine ⟨by decide, by decide, by norm_num⟩

/-- C8 (amended): `check_budget` returns `allowed = false` exactly when a
checked scope (global always; `project:<id>` / `session:<id>` when the id
is non-empty) has recorded usage at or above 100 % of a positive limit;
and when allowed, the warnings list is non-empty iff the GLOBAL scope has
a positive token limit whose rounded usage percentage strictly exceeds
80 % — project and session scopes never produce warnings. -/
theorem C8_check_budget_spec (mgr : BudgetManager)
    (session_id project_id : String) :
    ((check_budget mgr session_id project_id).allowed = false ↔
      (scopeExhausted mgr "global" ∨
        (project_id ≠ "" ∧ scopeExhausted mgr ("project:" ++ project_id)) ∨
        (session_id ≠ "" ∧ scopeExhausted mgr ("session:" ++ session_id)))) ∧
    ((check_budget mgr session_id project_id).allowed = true →
      ((check_budget mgr session_id project_id).warnings ≠ [] ↔
        (∃ limit, mgr.limits.lookup "global" = some limit ∧
          limit.max_tokens > 0 ∧
          pyRound 1
              ((((mgr.usage.lookup "global").getD ⟨0, 0, 0, 0⟩).tokens_used : ℚ) /
                (limit.max_tokens : ℚ) * 100) > 80))) := by
  simp only [check_budget]
  cases hg : (_check_scope mgr "global").1
  · simp only [Bool.not_false, if_true]
    constructor
    · simp only [true_iff]
      exact Or.inl ((check_scope_false_iff mgr "global").mp hg)
    · intro hcontra
      exact absurd hcontra (by simp)
  · have hgex : ¬ scopeExhausted mgr "global" := by
      intro hex
      have := (check_scope_false_iff mgr "global").mpr hex
      rw [this] at hg
      exact absurd hg (by simp)
    have hwcore :
        ((if (_check_scope mgr "global").2.usage_pct.getD 0 > 80 then
            ["全局预算已使用 " ++
              toString (roundHalfEven ((_check_scope mgr "global").2.usage_pct.getD 0)) ++ "%"]
          else []) ≠ [] ↔
          (∃ limit, mgr.limits.lookup "global" = some limit ∧
            limit.max_tokens > 0 ∧
            pyRound 1
                ((((mgr.usage.lookup "global").getD ⟨0, 0, 0, 0⟩).tokens_used : ℚ) /
                  (limit.max_tokens : ℚ) * 100) > 80)) := by
      rw [← check_scope_usage_pct mgr "global"]
      by_cases hcond : (_check_scope mgr "global").2.usage_pct.getD 0 > 80
      · rw [if_pos hcond]
        simp [hcond]
      · rw [if_neg hcond]
        simp [hcond]
    simp only [hg, Bool.not_true, Bool.false_eq_true, if_false]
    by_cases hp : project_id ≠ ""
    · rw [if_pos hp]
      cases hpv : (_check_scope mgr ("project:" ++ project_id)).1
      · simp only [Bool.not_false, if_true]
        constructor
        · simp only [true_iff]
          exact Or.inr (Or.inl ⟨hp, (check_scope_false_iff mgr _).mp hpv⟩)
        · intro hcontra
          exact absurd hcontra (by simp)
      · have hpex : ¬ scopeExhausted mgr ("project:" ++ project_id) := by
          intro hex
          have := (check_scope_false_iff mgr _).mpr hex
          rw [this] at hpv
          exact absurd hpv (by simp)
        simp only [hpv, Bool.not_true, Bool.false_eq_true, if_false]
        obtain ⟨hleg1, hleg2⟩ := checkSessionLeg_spec mgr session_id
          (if (_check_scope mgr "global").2.usage_pct.getD 0 > 80 then
            ["全局预算已使用 " ++
              toString (roundHalfEven ((_check_scope mgr "global").2.usage_pct.getD 0)) ++ "%"]
          else [])
          [("global", (_check_scope mgr "global").2),
           ("project", (_check_scope mgr ("project:" ++ project_id)).2)]
        constructor
        · rw [hleg1]
          constructor
          · intro h; exact Or.inr (Or.inr h)
          · rintro (h | ⟨-, h⟩ | h)
            · exact absurd h hgex
            · exact absurd h hpex
            · exact h
        · intro hallow
          rw [hleg2 hallow]
          exact hwcore
    · rw [if_neg hp]
      obtain ⟨hleg1, hleg2⟩ := checkSessionLeg_spec mgr session_id
        (if (_check_scope mgr "global").2.usage_pct.getD 0 > 80 then
          ["全局预算已使用 " ++
            toString (roundHalfEven ((_check_scope mgr "global").2.usage_pct.getD 0)) ++ "%"]
        else [])
        [("global", (_check_scope mgr "global").2)]
      constructor
      · rw [hleg1]
        constructor
        · intro h; exact Or.inr (Or.inr h)
        · rintro (h | ⟨hne, -⟩ | h)
          · exact absurd h hgex
          · exact absurd hne hp
          · exact h
      · intro hallow
        rw [hleg2 hallow]
        exact hwcore

/-- C8 witness: a manager whose global scope is at 100 % of a positive
token limit is refused. -/
theorem C8_witness :
    (check_budget ⟨[("global", ⟨100, 0, 0⟩)], [("global", ⟨100, 0, 5, 0⟩)]⟩
        "" "").allowed = false :=
  ((C8_check_budget_spec ⟨[("global", ⟨100, 0, 0⟩)], [("global", ⟨100, 0, 5, 0⟩)]⟩
      "" "").1).mpr
    (Or.inl ⟨⟨100, 0, 0⟩, by decide, Or.inl ⟨by decide, by decide⟩⟩)

/-! ## C10 — `src/backend/ai/tools/builtin/file_ops.py` -/

/-- Python `str.split(sep)` for a one-character separator (keeps empty
pieces). -/
def splitOnCharAux (c : Char) : List Char → List Char → List (List Char)
  | [], acc => [acc.reverse]
  | d :: rest, acc =>
    if d = c then acc.reverse :: splitOnCharAux c rest []
    else splitOnCharAux c rest (d :: acc)

/-- `splitOnCharAux` entry point. -/
def splitOnChar (c : Char) (l : List Char) : List (List Char) :=
  splitOnCharAux c l []

/-- POSIX path normalisation: resolve `.` and `..`, drop empty segments
(`..` at the root stays at the root). -/
def normSegs : List (List Char) → List (List Char) → List (List Char)
  | [], stack => stack.reverse
  | seg :: rest, stack =>
    if seg = [] ∨ seg = ['.'] then normSegs rest stack
    else if seg = ['.', '.'] then normSegs rest stack.tail
    else normSegs rest (seg :: stack)

/-- Canonical segment list of an absolute path's characters. -/
def canonSegs (l : List Char) : List (List Char) :=
  normSegs (splitOnChar '/' l) []

/-- Render segments as `/a/b/c` (without the leading slash). -/
def renderSegsAux : List (List Char) → List Char
  | [] => []
  | [s] => s
  | s :: rest => s ++ '/' :: renderSegsAux rest

/-- `os.path.realpath` modelled lexically (no symlinks), with the process
working directory `cwd` explicit: make the path absolute against `cwd`,
resolve `.` and `..`, collapse slashes. -/
def realpathM (cwd : String) (p : String) : String :=
  let absChars := if p.data.head? = some '/' then p.data
    else cwd.data ++ '/' :: p.data
  String.mk ('/' :: renderSegsAux (canonSegs absChars))

/-- `os.path.join` for two POSIX paths. -/
def pyJoin (a b : String) : String :=
  if b.data.head? = some '/' then b
  else if a = "" then b
  else if a.data.getLast? = some '/' then a ++ b
  else a ++ "/" ++ b

/-- `validate_path` (file_ops.py lines 57-69), returning
`(is_safe, absolute_path, error_message)`. -/
def validate_path (cwd workspace rel_path : String) :
    Bool × String × String :=
  let rel := String.mk ((pyStrip rel_path.data).dropWhile (fun c => c = '/'))
  let abs_path := realpathM cwd (pyJoin workspace rel)
  let workspace_real := realpathM cwd workspace
  if ¬ ((workspace_real ++ "/").data.isPrefixOf abs_path.data) ∧
      abs_path ≠ workspace_real then
    (false, abs_path, "⚠️ 路径越界: \x27" ++ rel ++ "\x27 不在项目目录内")
  else
    (true, abs_path, "")

/-- The path segments of a rendered path (non-empty pieces between
slashes). -/
def pathSegsOf (p : String) : List (List Char) :=
  (splitOnChar '/' p.data).filter (fun s => !s.isEmpty)

/-- Well-formed canonical segments: non-empty and slash-free. -/
def goodSegs (segs : List (List Char)) : Prop :=
  ∀ s ∈ segs, s ≠ [] ∧ '/' ∉ s

theorem splitOnCharAux_no_c (c : Char) (l : List Char) :
    ∀ acc, c ∉ acc → ∀ s ∈ splitOnCharAux c l acc, c ∉ s := by
  induction l with
  | nil =>
    intro acc hacc s hs
    simp only [splitOnCharAux, List.mem_singleton] at hs
    subst hs
    simpa using hacc
  | cons d rest ih =>
    intro acc hacc s hs
    by_cases hd : d = c
    · rw [splitOnCharAux, if_pos hd] at hs
      rcases List.mem_cons.mp hs with rfl | hs2
      · simpa using hacc
      · exact ih [] (by simp) s hs2
    · rw [splitOnCharAux, if_neg hd] at hs
      refine ih (d :: acc) ?_ s hs
      intro hmem
      rcases List.mem_cons.mp hmem with rfl | hmem2
      · exact hd rfl
      · exact hacc hmem2

theorem normSegs_good (l : List (List Char)) :
    ∀ stack, (∀ s ∈ l, '/' ∉ s) → goodSegs stack →
      goodSegs (normSegs l stack) := by
  induction l with
  | nil =>
    intro stack _ hstack s hs
    exact hstack s (List.mem_reverse.mp hs)
  | cons seg rest ih =>
    intro stack hl hstack
    have hrest : ∀ s ∈ rest, '/' ∉ s :=
      fun s hs => hl s (List.mem_cons_of_mem _ hs)
    by_cases h1 : seg = [] ∨ seg = ['.']
    · rw [normSegs, if_pos h1]
      exact ih stack hrest hstack
    · rw [normSegs, if_neg h1]
      by_cases h2 : seg = ['.', '.']
      · rw [if_pos h2]
        exact ih stack.tail hrest
          (fun s hs => hstack s (List.mem_of_mem_tail hs))
      · rw [if_neg h2]
        refine ih (seg :: stack) hrest ?_
        intro s hs
        rcases List.mem_cons.mp hs with rfl | hs2
        · refine ⟨fun hnil => h1 (Or.inl hnil), hl s (List.mem_cons_self _ _)⟩
        · exact hstack s hs2

theorem canonSegs_good (l : List Char) : goodSegs (canonSegs l) := by
  unfold canonSegs
  refine normSegs_good _ [] ?_ ?_
  · intro s hs
    exact splitOnCharAux_no_c '/' l [] (by simp) s hs
  · intro s hs; cases hs

theorem splitOnCharAux_append_no_c {c : Char} {s : List Char} (hs : c ∉ s) :
    ∀ (l acc : List Char),
      splitOnCharAux c (s ++ l) acc = splitOnCharAux c l (s.reverse ++ acc) := by
  induction s with
  | nil => intro l acc; simp
  | cons d s2 ih =>
    intro l acc
    have hd : d ≠ c := fun hdc => hs (hdc ▸ List.mem_cons_self d s2)
    have hs2 : c ∉ s2 := fun hm => hs (List.mem_cons_of_mem d hm)
    rw [List.cons_append, splitOnCharAux, if_neg hd]
    rw [ih hs2 l (d :: acc)]
    simp

theorem splitOnChar_renderSegsAux {segs : List (List Char)}
    (hgood : goodSegs segs) (hne : segs ≠ []) :
    splitOnChar '/' (renderSegsAux segs) = segs := by
  induction segs with
  | nil => exact absurd rfl hne
  | cons s rest ih =>
    have hs : '/' ∉ s := (hgood s (List.mem_cons_self _ _)).2
    cases rest with
    | nil =>
      show splitOnCharAux '/' (renderSegsAux [s]) [] = [s]
      rw [renderSegsAux]
      rw [show (s : List Char) = s ++ [] by simp]
      rw [splitOnCharAux_append_no_c hs [] []]
      simp [splitOnCharAux]
    | cons s2 rest2 =>
      have hgood2 : goodSegs (s2 :: rest2) :=
        fun x hx => hgood x (List.mem_cons_of_mem _ hx)
      show splitOnCharAux '/' (renderSegsAux (s :: s2 :: rest2)) [] = _
      rw [show renderSegsAux (s :: s2 :: rest2) =
        s ++ '/' :: renderSegsAux (s2 :: rest2) from rfl]
      rw [splitOnCharAux_append_no_c hs _ []]
      rw [splitOnCharAux, if_pos rfl]
      have ih2 := ih hgood2 (by simp)
      unfold splitOnChar at ih2
      rw [ih2]
      simp

theorem pathSegsOf_canonical {segs : List (List Char)} (hgood : goodSegs segs) :
    pathSegsOf (String.mk ('/' :: renderSegsAux segs)) = segs := by
  unfold pathSegsOf splitOnChar
  rw [show (String.mk ('/' :: renderSegsAux segs)).data =
    '/' :: renderSegsAux segs from rfl]
  rw [splitOnCharAux, if_pos rfl]
  cases hsegs : segs with
  | nil =>
    rfl
  | cons s rest =>
    rw [← hsegs]
    have := splitOnChar_renderSegsAux hgood (by rw [hsegs]; simp)
    unfold splitOnChar at this
    rw [this]
    simp only [List.reverse_nil, List.filter_cons, List.isEmpty_nil,
      Bool.not_true, Bool.false_eq_true, if_false]
    rw [List.filter_eq_self.mpr]
    intro a ha
    have := (hgood a ha).1
    simpa [List.isEmpty_iff] using this

theorem prefix_slash_eq {x : List Char} :
    ∀ {y u v : List Char}, '/' ∉ x → '/' ∉ y →
      (x ++ '/' :: u) <+: (y ++ '/' :: v) → x = y ∧ u <+: v := by
  induction x with
  | nil =>
    intro y u v _ hy h
    cases y with
    | nil =>
      rw [List.nil_append, List.nil_append, List.cons_prefix_cons] at h
      exact ⟨rfl, h.2⟩
    | cons b y2 =>
      rw [List.nil_append, List.cons_append, List.cons_prefix_cons] at h
      exact absurd (h.1 ▸ List.mem_cons_self b y2) hy
  | cons a x2 ih =>
    intro y u v hx hy h
    cases y with
    | nil =>
      rw [List.cons_append, List.nil_append, List.cons_prefix_cons] at h
      exact absurd (h.1 ▸ List.mem_cons_self a x2) hx
    | cons b y2 =>
      rw [List.cons_append, List.cons_append, List.cons_prefix_cons] at h
      have hx2 : '/' ∉ x2 := fun hm => hx (List.mem_cons_of_mem a hm)
      have hy2 : '/' ∉ y2 := fun hm => hy (List.mem_cons_of_mem b hm)
      obtain ⟨heq, hpre⟩ := ih hx2 hy2 h.2
      exact ⟨by rw [h.1, heq], hpre⟩

theorem render_prefix_to_segs {W : List (List Char)} :
    ∀ {A : List (List Char)}, goodSegs W → goodSegs A →
      (renderSegsAux W ++ ['/']) <+: renderSegsAux A → W <+: A := by
  induction W with
  | nil => intro A _ _ _; exact List.nil_prefix
  | cons w W2 ihW =>
    intro A hW hA h
    have hw : '/' ∉ w := (hW w (List.mem_cons_self _ _)).2
    have hW2 : goodSegs W2 := fun x hx => hW x (List.mem_cons_of_mem _ hx)
    cases A with
    | nil =>
      rw [show renderSegsAux ([] : List (List Char)) = [] from rfl,
        List.prefix_nil, List.append_eq_nil] at h
      exact absurd h.2 (by simp)
    | cons a A2 =>
      have ha : '/' ∉ a := (hA a (List.mem_cons_self _ _)).2
      have hA2 : goodSegs A2 := fun x hx => hA x (List.mem_cons_of_mem _ hx)
      cases W2 with
      | nil =>
        cases A2 with
        | nil =>
          rw [show renderSegsAux [w] = w from rfl,
            show renderSegsAux [a] = a from rfl] at h
          obtain ⟨t, ht⟩ := h
          have : '/' ∈ a := by
            rw [← ht]
            simp
          exact absurd this ha
        | cons a2 A3 =>
          rw [show renderSegsAux [w] = w from rfl,
            show renderSegsAux (a :: a2 :: A3) =
              a ++ '/' :: renderSegsAux (a2 :: A3) from rfl] at h
          rw [show (w ++ ['/'] : List Char) = w ++ '/' :: [] from rfl] at h
          obtain ⟨heq, -⟩ := prefix_slash_eq hw ha h
          rw [List.cons_prefix_cons]
          exact ⟨heq, List.nil_prefix⟩
      | cons w2 W3 =>
        cases A2 with
        | nil =>
          rw [show renderSegsAux (w :: w2 :: W3) =
              w ++ '/' :: renderSegsAux (w2 :: W3) from rfl,
            show renderSegsAux [a] = a from rfl] at h
          obtain ⟨t, ht⟩ := h
          have : '/' ∈ a := by
            rw [← ht]
            simp
          exact absurd this ha
        | cons a2 A3 =>
          rw [show renderSegsAux (w :: w2 :: W3) =
              w ++ '/' :: renderSegsAux (w2 :: W3) from rfl,
            show renderSegsAux (a :: a2 :: A3) =
              a ++ '/' :: renderSegsAux (a2 :: A3) from rfl] at h
          rw [List.append_assoc, List.cons_append] at h
          obtain ⟨heq, hpre⟩ := prefix_slash_eq hw ha h
          rw [List.cons_prefix_cons]
          refine ⟨heq, ihW hW2 hA2 ?_⟩
          exact hpre

/-- C10: any path accepted by `validate_path` — even one supplied in
absolute form — canonicalises to the workspace root or to a descendant of
it: the workspace's canonical segments are a prefix of the accepted
path's canonical segments.  `realpath` is modelled lexically (no
symlinks) with an explicit working directory. -/
theorem C10_validate_path_confines (cwd workspace rel_path : String)
    (h : (validate_path cwd workspace rel_path).1 = true) :
    pathSegsOf (realpathM cwd workspace) <+:
      pathSegsOf (validate_path cwd workspace rel_path).2.1 := by
  unfold validate_path at h ⊢
  by_cases hcond :
      ¬ (((realpathM cwd workspace ++ "/").data).isPrefixOf
          (realpathM cwd (pyJoin workspace
            (String.mk ((pyStrip rel_path.data).dropWhile
              (fun c => c = '/'))))).data) ∧
        realpathM cwd (pyJoin workspace
            (String.mk ((pyStrip rel_path.data).dropWhile (fun c => c = '/')))) ≠
          realpathM cwd workspace
  · rw [if_pos hcond] at h
    exact absurd h (by simp)
  · rw [if_neg hcond] at h ⊢
    rw [Classical.not_and_iff_or_not_not] at hcond
    rcases hcond with hpre | heq
    · rw [Classical.not_not] at hpre
      rw [List.isPrefixOf_iff_prefix] at hpre
      rw [show (realpathM cwd workspace ++ "/").data =
        (realpathM cwd workspace).data ++ ['/'] by simp [String.data_append]] at hpre
      unfold realpathM at hpre ⊢
      rw [pathSegsOf_canonical (canonSegs_good _),
        pathSegsOf_canonical (canonSegs_good _)]
      rw [show (String.mk ('/' :: renderSegsAux (canonSegs
          (if workspace.data.head? = some '/' then workspace.data
            else cwd.data ++ '/' :: workspace.data)))).data =
        '/' :: renderSegsAux (canonSegs
          (if workspace.data.head? = some '/' then workspace.data
            else cwd.data ++ '/' :: workspace.data)) from rfl] at hpre
      rw [List.cons_append, List.cons_prefix_cons] at hpre
      exact render_prefix_to_segs (canonSegs_good _) (canonSegs_good _) hpre.2
    · rw [Classical.not_not] at heq
      rw [heq]

/-- C10 witness: a relative path inside the workspace is accepted and its
canonical form stays under the workspace. -/
theorem C10_witness :
    (validate_path "/cwd" "/ws" "sub/file.txt").1 = true ∧
    pathSegsOf (realpathM "/cwd" "/ws") <+:
      pathSegsOf (validate_path "/cwd" "/ws" "sub/file.txt").2.1 :=
  ⟨by decide, C10_validate_path_confines "/cwd" "/ws" "sub/file.txt" (by decide)⟩

/-! ## C2 — `src/backend/ai/context/window.py`

`estimate_tokens`, `estimate_messages_tokens`, `truncate_text`
(`studio.backend.core.token_utils`) and `capability_cache`
(`studio.backend.core.model_capabilities`) are imported by window.py but
their modules are not part of this repository snapshot, so they are
modelled from the spec.  Python float products (`budget * 0.3`,
`max_output * 0.05`) are modelled by exact rational arithmetic
(`3 * budget / 10`, `max_output * 5 / 100`). -/

/-- A chat message as consumed by the window manager (`content` is the
string under the `content` key; Python `None` ≅ `""`). -/
structure WindowMsg where
  role : String
  content : String
deriving DecidableEq

/-- Modelled from the spec: `estimate_tokens` of the missing
`token_utils` module — "approximate token count of strings" — at the
usual ~4 characters per token. -/
def estimate_tokens (s : String) : ℕ := (s.length + 3) / 4

/-- Modelled from the spec: `estimate_messages_tokens` of the missing
`token_utils` module — "approximate token count of message lists" — as
the sum of the contents' token estimates. -/
def estimate_messages_tokens (msgs : List WindowMsg) : ℕ :=
  (msgs.map (fun m => estimate_tokens m.content)).sum

/-- Modelled from the spec: `truncate_text` of the missing `token_utils`
module — "length-preserving truncation" — keep the longest prefix within
the token budget. -/
def truncate_text (s : String) (max_toks : ℕ) : String :=
  String.mk (s.data.take (4 * max_toks))

/-- The in-place shrink of one protected message
(window.py lines 98-102). -/
def shrinkRecentMsg (budget : ℕ) (m : WindowMsg) : WindowMsg :=
  if m.content ≠ "" ∧ 10 * estimate_tokens m.content > 3 * budget then
    { m with content := truncate_text m.content (3 * budget / 10) }
  else m

/-- The greedy prepend of older messages, newest first
(window.py lines 111-118); input is `older` reversed, output is in
original order. -/
def greedyTake : List WindowMsg → ℕ → List WindowMsg
  | [], _ => []
  | m :: rest, rb =>
    if estimate_tokens m.content ≤ rb then
      greedyTake rest (rb - estimate_tokens m.content) ++ [m]
    else []

/-- The protected tail after per-message shrinking
(window.py lines 93-102); `MIN_RECENT_MESSAGES = 2`. -/
def recentShrunk (messages : List WindowMsg) (budget : ℕ) : List WindowMsg :=
  (messages.drop (messages.length - min (2 * 2) messages.length)).map
    (shrinkRecentMsg budget)

/-- The older messages in front of the protected tail
(window.py line 95). -/
def olderPart (messages : List WindowMsg) : List WindowMsg :=
  messages.take (messages.length - min (2 * 2) messages.length)

/-- The kept messages in the greedy branch (window.py lines 111-120). -/
def keptResult (messages : List WindowMsg) (budget : ℕ) : List WindowMsg :=
  greedyTake (olderPart messages).reverse
      (budget - estimate_messages_tokens (recentShrunk messages budget)) ++
    recentShrunk messages budget

/-- `_truncate_messages` (window.py lines 80-122), returning
`(managed, kept, dropped)`. -/
def _truncate_messages (messages : List WindowMsg) (budget : ℕ) :
    List WindowMsg × Int × Int :=
  if messages.isEmpty then ([], 0, 0)
  else if estimate_messages_tokens messages ≤ budget then
    (messages, messages.length, 0)
  else if budget ≤ estimate_messages_tokens (recentShrunk messages budget) then
    ((recentShrunk messages budget).drop
        ((recentShrunk messages budget).length - 2),
      2, (messages.length : Int) - 2)
  else
    (keptResult messages budget, (keptResult messages budget).length,
      (messages.length : Int) - (keptResult messages budget).length)

/-- The usage-info dict built by `prepare_context`
(window.py lines 63-75). -/
structure UsageInfo where
  max_input : ℕ
  max_output : ℕ
  system_tokens : ℕ
  plan_tokens : ℕ
  tools_tokens : ℕ
  history_tokens : ℕ
  history_budget : ℕ
  total_used : ℕ
  available : ℤ
  kept_messages : ℤ
  dropped_messages : ℤ
deriving DecidableEq

/-- `prepare_context` (window.py lines 31-77).  `capWindow` stands for the
missing `capability_cache.get_context_window`; `toolsJson` is
`json.dumps(tool_definitions)` when tool definitions are passed
(`none` = absent or empty). -/
def prepare_context (capWindow : String → ℕ × ℕ)
    (messages : List WindowMsg) (system_prompt model plan_summary : String)
    (toolsJson : Option String) : List WindowMsg × UsageInfo :=
  let mi := capWindow model
  let output_reserve := if mi.2 ≠ 0 then mi.2 * 5 / 100 else 400
  let available : ℤ := (mi.1 : ℤ) - output_reserve - 200
  let system_tokens := estimate_tokens system_prompt
  let plan_tokens := if plan_summary ≠ "" then estimate_tokens plan_summary else 0
  let tools_tokens := match toolsJson with
    | some j => estimate_tokens j
    | none => 0
  let fixed_cost := system_tokens + plan_tokens + tools_tokens
  let history_budget := (max (available - fixed_cost) 500).toNat
  let t := _truncate_messages messages history_budget
  let history_tokens := estimate_messages_tokens t.1
  (t.1,
    { max_input := mi.1
      max_output := mi.2
      system_tokens := system_tokens
      plan_tokens := plan_tokens
      tools_tokens := tools_tokens
      history_tokens := history_tokens
      history_budget := history_budget
      total_used := fixed_cost + history_tokens
      available := available
      kept_messages := t.2.1
      dropped_messages := t.2.2 })

/-- Every message that went through `shrinkRecentMsg` fits in 30 % of the
budget. -/
theorem shrinkRecentMsg_bound (budget : ℕ) (m : WindowMsg) :
    estimate_tokens (shrinkRecentMsg budget m).content ≤ 3 * budget / 10 := by
  unfold shrinkRecentMsg
  split
  · show estimate_tokens (truncate_text m.content (3 * budget / 10)) ≤ _
    unfold estimate_tokens truncate_text
    have hlen : (String.mk (m.content.data.take (4 * (3 * budget / 10)))).length ≤
        4 * (3 * budget / 10) := by
      show (m.content.data.take (4 * (3 * budget / 10))).length ≤ _
      rw [List.length_take]
      exact min_le_left _ _
    omega
  · rename_i hcond
    by_cases hc : m.content = ""
    · have : m.content.length = 0 := by rw [hc]; rfl
      unfold estimate_tokens
      omega
    · have h10 : ¬ 10 * estimate_tokens m.content > 3 * budget :=
        fun hgt => hcond ⟨hc, hgt⟩
      omega

/-- The greedy prepend never exceeds its remaining budget. -/
theorem greedyTake_sum (l : List WindowMsg) :
    ∀ rb, estimate_messages_tokens (greedyTake l rb) ≤ rb := by
  induction l with
  | nil => intro rb; simp [greedyTake, estimate_messages_tokens]
  | cons m rest ih =>
    intro rb
    unfold greedyTake
    split
    · rename_i hfits
      unfold estimate_messages_tokens at ih ⊢
      rw [List.map_append, List.sum_append]
      have := ih (rb - estimate_tokens m.content)
      simp only [List.map_cons, List.map_nil, List.sum_cons, List.sum_nil]
      omega
    · simp [estimate_messages_tokens]

theorem sum_le_of_two {l : List WindowMsg} {k : ℕ}
    (hb : ∀ m ∈ l, estimate_tokens m.content ≤ k) (hl : l.length ≤ 2) :
    estimate_messages_tokens l ≤ 2 * k := by
  match l, hl with
  | [], _ => simp [estimate_messages_tokens]
  | [a], _ =>
    have := hb a (List.mem_cons_self _ _)
    simp only [estimate_messages_tokens, List.map_cons, List.map_nil,
      List.sum_cons, List.sum_nil]
    omega
  | [a, b], _ =>
    have ha := hb a (by simp)
    have hbb := hb b (by simp)
    simp only [estimate_messages_tokens, List.map_cons, List.map_nil,
      List.sum_cons, List.sum_nil]
    omega

theorem getLast?_drop_of_lt {α : Type} :
    ∀ (l : List α) (n : ℕ), n < l.length → (l.drop n).getLast? = l.getLast? := by
  intro l
  induction l with
  | nil => intro n hn; simp at hn
  | cons a t ih =>
    intro n hn
    cases n with
    | zero => rfl
    | succ n2 =>
      rw [List.drop_succ_cons]
      rw [List.length_cons] at hn
      have hn2 : n2 < t.length := Nat.lt_of_succ_lt_succ hn
      rw [ih n2 hn2]
      cases t with
      | nil => simp at hn2
      | cons b t2 => rw [List.getLast?_cons_cons]

theorem getLast?_map {α β : Type} (f : α → β) :
    ∀ (l : List α), (l.map f).getLast? = (l.getLast?).map f := by
  intro l
  induction l with
  | nil => rfl
  | cons a t ih =>
    cases t with
    | nil => rfl
    | cons b t2 =>
      rw [List.map_cons, List.map_cons, List.getLast?_cons_cons,
        List.getLast?_cons_cons, ← List.map_cons]
      exact ih

theorem getLast?_append_right {α : Type} (l₁ : List α) :
    ∀ l₂ : List α, l₂ ≠ [] → (l₁ ++ l₂).getLast? = l₂.getLast? := by
  induction l₁ with
  | nil => intro l₂ _; rw [List.nil_append]
  | cons a t ih =>
    intro l₂ h2
    rw [List.cons_append]
    have hne : t ++ l₂ ≠ [] := by
      intro hnil
      rcases List.append_eq_nil.mp hnil with ⟨-, h⟩
      exact h2 h
    cases he : t ++ l₂ with
    | nil => exact absurd he hne
    | cons b t2 =>
      rw [List.getLast?_cons_cons, ← he]
      exact ih l₂ h2

/-- `_truncate_messages` keeps the managed list within budget, and its
last message is the input's last message, possibly shrunk to 30 % of the
budget. -/
theorem truncate_messages_spec (messages : List WindowMsg) (budget : ℕ) :
    estimate_messages_tokens (_truncate_messages messages budget).1 ≤ budget ∧
    ((_truncate_messages messages budget).1 ≠ [] →
      ((_truncate_messages messages budget).1.getLast? = messages.getLast? ∨
        (_truncate_messages messages budget).1.getLast? =
          messages.getLast?.map (shrinkRecentMsg budget))) := by
  unfold _truncate_messages
  by_cases hemp : messages.isEmpty
  · rw [if_pos hemp]
    exact ⟨by simp [estimate_messages_tokens], fun h => absurd rfl h⟩
  · rw [if_neg hemp]
    have hlenpos : 0 < messages.length := by
      cases messages with
      | nil => simp at hemp
      | cons a t => simp
    have hminpos : 1 ≤ min (2 * 2) messages.length := le_min (by omega) hlenpos
    have hminle : min (2 * 2) messages.length ≤ messages.length :=
      min_le_right _ _
    by_cases htot : estimate_messages_tokens messages ≤ budget
    · rw [if_pos htot]
      exact ⟨htot, fun _ => Or.inl rfl⟩
    · rw [if_neg htot]
      have hrb : ∀ m ∈ recentShrunk messages budget,
          estimate_tokens m.content ≤ 3 * budget / 10 := by
        intro m hm
        obtain ⟨m0, -, rfl⟩ := List.mem_map.mp hm
        exact shrinkRecentMsg_bound budget m0
      have hrlen : (recentShrunk messages budget).length =
          min (2 * 2) messages.length := by
        unfold recentShrunk
        rw [List.length_map, List.length_drop]
        omega
      have hrne : recentShrunk messages budget ≠ [] := by
        refine List.length_pos.mp ?_
        rw [hrlen]
        omega
      have hlast : (recentShrunk messages budget).getLast? =
          messages.getLast?.map (shrinkRecentMsg budget) := by
        unfold recentShrunk
        rw [getLast?_map, getLast?_drop_of_lt _ _ (by omega)]
      by_cases hge : budget ≤ estimate_messages_tokens (recentShrunk messages budget)
      · rw [if_pos hge]
        constructor
        · show estimate_messages_tokens ((recentShrunk messages budget).drop
            ((recentShrunk messages budget).length - 2)) ≤ budget
          have hsub : ∀ m ∈ (recentShrunk messages budget).drop
              ((recentShrunk messages budget).length - 2),
              estimate_tokens m.content ≤ 3 * budget / 10 := by
            intro m hm
            exact hrb m (List.mem_of_mem_drop hm)
          have hlen2 : ((recentShrunk messages budget).drop
              ((recentShrunk messages budget).length - 2)).length ≤ 2 := by
            rw [List.length_drop]; omega
          have hs := sum_le_of_two hsub hlen2
          have hdm : 3 * budget / 10 * 10 ≤ 3 * budget := Nat.div_mul_le_self _ _
          omega
        · intro _
          have hrpos : 0 < (recentShrunk messages budget).length :=
            List.length_pos.mpr hrne
          have hddrop : ((recentShrunk messages budget).drop
              ((recentShrunk messages budget).length - 2)).getLast? =
              messages.getLast?.map (shrinkRecentMsg budget) := by
            rw [getLast?_drop_of_lt _ _ (by omega), hlast]
          exact Or.inr hddrop
      · rw [if_neg hge]
        constructor
        · show estimate_messages_tokens (keptResult messages budget) ≤ budget
          unfold keptResult
          have hg := greedyTake_sum (olderPart messages).reverse
            (budget - estimate_messages_tokens (recentShrunk messages budget))
          unfold estimate_messages_tokens at hg hge ⊢
          rw [List.map_append, List.sum_append]
          omega
        · intro _
          have hk : (keptResult messages budget).getLast? =
              messages.getLast?.map (shrinkRecentMsg budget) := by
            unfold keptResult
            rw [getLast?_append_right _ _ hrne, hlast]
          exact Or.inr hk

/-- `prepare_context` returns precisely the `_truncate_messages` result at
the computed history budget. -/
theorem prepare_context_managed (capWindow : String → ℕ × ℕ)
    (messages : List WindowMsg) (s m p : String) (tj : Option String) :
    (prepare_context capWindow messages s m p tj).1 =
      (_truncate_messages messages
        ((prepare_context capWindow messages s m p tj).2.history_budget)).1 := rfl

/-- C2: the claim as stated is false: when the last message's content
exceeds 30 % of the history budget, `prepare_context` replaces it by a
truncated copy, so the result's last message differs from the input's. -/
theorem C2_counterexample :
    (prepare_context (fun _ => (1000, 0))
      [⟨"user", String.mk (List.replicate 2004 'a')⟩] "" "m" "" none).1 ≠ [] ∧
    (prepare_context (fun _ => (1000, 0))
      [⟨"user", String.mk (List.replicate 2004 'a')⟩] "" "m" "" none).1.getLast? ≠
      some ⟨"user", String.mk (List.replicate 2004 'a')⟩ := by
  have hCl : (String.mk (List.replicate 2004 'a')).length = 2004 := by
    show (List.replicate 2004 'a').length = 2004
    exact List.length_replicate 2004 'a'
  have h600 : (String.mk (List.replicate 600 'a')).length = 600 := by
    show (List.replicate 600 'a').length = 600
    exact List.length_replicate 600 'a'
  have hest : estimate_tokens (String.mk (List.replicate 2004 'a')) = 501 := by
    unfold estimate_tokens
    rw [hCl]
  have hest600 : estimate_tokens (String.mk (List.replicate 600 'a')) = 150 := by
    unfold estimate_tokens
    rw [h600]
  have htrunc : truncate_text (String.mk (List.replicate 2004 'a'))
      (3 * 500 / 10) = String.mk (List.replicate 600 'a') := by
    unfold truncate_text
    have htake : (String.mk (List.replicate 2004 'a')).data.take
        (4 * (3 * 500 / 10)) = List.replicate 600 'a' := by
      show (List.replicate 2004 'a').take (4 * (3 * 500 / 10)) = _
      rw [List.take_replicate]
      norm_num
    rw [htake]
  have hshr : shrinkRecentMsg 500 ⟨"user", String.mk (List.replicate 2004 'a')⟩ =
      ⟨"user", String.mk (List.replicate 600 'a')⟩ := by
    unfold shrinkRecentMsg
    dsimp only
    rw [if_pos ?hc]
    case hc =>
      refine ⟨?_, ?_⟩
      · intro he
        rw [he] at hCl
        exact absurd hCl (by decide)
      · rw [hest]
        norm_num
    rw [htrunc]
  have hrs : recentShrunk [⟨"user", String.mk (List.replicate 2004 'a')⟩] 500 =
      [shrinkRecentMsg 500 ⟨"user", String.mk (List.replicate 2004 'a')⟩] := by
    unfold recentShrunk
    rfl
  have hrt : estimate_messages_tokens
      (recentShrunk [⟨"user", String.mk (List.replicate 2004 'a')⟩] 500) = 150 := by
    rw [hrs, hshr]
    simp only [estimate_messages_tokens, List.map_cons, List.map_nil,
      List.sum_cons, List.sum_nil]
    rw [hest600]
    norm_num
  have hres : (_truncate_messages
      [⟨"user", String.mk (List.replicate 2004 'a')⟩] 500).1 =
      [⟨"user", String.mk (List.replicate 600 'a')⟩] := by
    unfold _truncate_messages
    rw [if_neg ?h1, if_neg ?h2, if_neg ?h3]
    case h1 => decide
    case h2 =>
      simp only [estimate_messages_tokens, List.map_cons, List.map_nil,
        List.sum_cons, List.sum_nil]
      rw [hest]
      norm_num
    case h3 =>
      rw [hrt]
      norm_num
    show keptResult [⟨"user", String.mk (List.replicate 2004 'a')⟩] 500 = _
    unfold keptResult olderPart
    rw [hrs, hshr]
    rfl
  have hpc := prepare_context_managed (fun _ => (1000, 0))
    [⟨"user", String.mk (List.replicate 2004 'a')⟩] "" "m" "" none
  have hb0 : (prepare_context (fun _ => (1000, 0))
      [⟨"user", String.mk (List.replicate 2004 'a')⟩] "" "m" ""
        none).2.history_budget = 500 := rfl
  rw [hb0] at hpc
  rw [hpc, hres]
  constructor
  · intro hcontra
    exact absurd hcontra (by simp)
  · intro hcontra
    rw [show ([⟨"user", String.mk (List.replicate 600 'a')⟩] :
      List WindowMsg).getLast? =
        some ⟨"user", String.mk (List.replicate 600 'a')⟩ from rfl] at hcontra
    injection hcontra with hmsg
    have hlen := congrArg (fun mm : WindowMsg => mm.content.length) hmsg
    dsimp only at hlen
    rw [h600, hCl] at hlen
    exact absurd hlen (by decide)

/-- C2 (amended): `prepare_context` returns a managed list whose
`estimate_messages_tokens` is at most the computed history budget, and
whose last message (when the result is non-empty) equals the last message
of the input, except that its content may have been shrunk to 30 % of the
budget by the protected-tail truncation. -/
theorem C2_prepare_context_spec (capWindow : String → ℕ × ℕ)
    (messages : List WindowMsg)
    (system_prompt model plan_summary : String) (toolsJson : Option String) :
    estimate_messages_tokens
        (prepare_context capWindow messages system_prompt model plan_summary
          toolsJson).1 ≤
      ((prepare_context capWindow messages system_prompt model plan_summary
          toolsJson).2).history_budget ∧
    ((prepare_context capWindow messages system_prompt model plan_summary
        toolsJson).1 ≠ [] →
      ((prepare_context capWindow messages system_prompt model plan_summary
          toolsJson).1.getLast? = messages.getLast? ∨
        (prepare_context capWindow messages system_prompt model plan_summary
            toolsJson).1.getLast? =
          messages.getLast?.map (shrinkRecentMsg
            ((prepare_context capWindow messages system_prompt model
              plan_summary toolsJson).2).history_budget))) :=
  truncate_messages_spec messages
    ((prepare_context capWindow messages system_prompt model plan_summary
      toolsJson).2).history_budget

/-- C2 witness at a small concrete input (nothing shrunk). -/
theorem C2_witness :
    (estimate_messages_tokens
        (prepare_context (fun _ => (10000, 1000)) [⟨"user", "hi"⟩] "" "m" ""
          none).1 ≤
      ((prepare_context (fun _ => (10000, 1000)) [⟨"user", "hi"⟩] "" "m" ""
          none).2).history_budget) ∧
    ((prepare_context (fun _ => (10000, 1000)) [⟨"user", "hi"⟩] "" "m" ""
        none).1.getLast? = [(⟨"user", "hi"⟩ : WindowMsg)].getLast? ∨
      (prepare_context (fun _ => (10000, 1000)) [⟨"user", "hi"⟩] "" "m" ""
          none).1.getLast? =
        [(⟨"user", "hi"⟩ : WindowMsg)].getLast?.map (shrinkRecentMsg
          ((prepare_context (fun _ => (10000, 1000)) [⟨"user", "hi"⟩] "" "m" ""
            none).2).history_budget)) := by
  have h := C2_prepare_context_spec (fun _ => (10000, 1000)) [⟨"user", "hi"⟩]
    "" "m" "" none
  exact ⟨h.1, h.2 (by decide)⟩


/-! ## C3, C4, C9 — `src/backend/ai/agents/react.py`

`ReActAgent.act` is embedded as a pure function of (a) the per-round
streams the LLM client yields and (b) an `AgentEnv` bundling everything
`act` consumes from outside the loop: the missing
`studio.backend.core` token utilities and capability cache, JSON
canonicalisation (`json.loads` + `json.dumps(..., sort_keys=True)`), the
tool executor, wall-clock durations, and the fabrication detector with
its `command_auth` enable flag (whose module is also absent).
`capability_cache.learn_from_error` only mutates the external cache and
is not observable here. -/

/-- The usage payload of a provider `usage` event. -/
structure UsageData where
  prompt_tokens : ℕ
  completion_tokens : ℕ
  total_tokens : ℕ
deriving DecidableEq, Repr

/-- One streamed provider event, as consumed by the collection loop
(react.py lines 96-138). -/
inductive StreamEvt
  | content (s : String)
  | thinking (s : String)
  | toolCallDelta (idx : ℕ) (idOpt nameOpt argsOpt : Option String)
  | usage (u : Option UsageData)
  | finish (reason : String)
  | error (msg : String) (hasMeta : Bool)
deriving DecidableEq, Repr

/-- One model round: the stream's events, then an optional exception
raised by the stream (react.py lines 141-144). -/
structure RoundStream where
  events : List StreamEvt
  exn : Option String
deriving DecidableEq, Repr

/-- A pending tool call being collected (react.py line 110). -/
structure PendTC where
  id : String
  name : String
  arguments : String
deriving DecidableEq, Repr

/-- The agent events `act` yields; `toolCall`/`toolResult` carry the
canonically serialised parsed arguments. -/
inductive AgentEvent
  | content (s : String)
  | thinking (s : String)
  | toolCallStart (id name : String)
  | toolCall (id name args : String)
  | toolResult (id name args result : String) (durationMs : ℕ)
  | toolError (id name error : String)
  | usage (prompt completion total toolRounds : ℕ)
  | truncated
  | askUserPending
  | error (msg : String) (hasMeta : Bool)
  | reflection (summary action : String)
deriving DecidableEq, Repr

/-- A chat message on `current_messages`. -/
structure AMsg where
  role : String
  content : Option String
  toolCalls : List (String × String × String)
  toolCallId : Option String
deriving DecidableEq, Repr

/-- An entry of `all_tool_calls` (react.py lines 246-262). -/
structure ExecRecord where
  id : String
  name : String
  arguments : String
  result : String
  durationMs : ℕ
deriving DecidableEq, Repr

/-- The loop variables of `act` that persist across rounds
(react.py lines 65-69). -/
structure AgState where
  messages : List AMsg
  totalToolRounds : ℕ
  seen : List String
  allToolCalls : List ExecRecord
  fabricationRetries : ℕ
deriving DecidableEq, Repr

/-- Everything `act` consumes from outside the loop. -/
structure AgentEnv where
  maxInput : ℕ
  maxTokens : ℕ
  maxToolRounds : ℕ
  hasExecutor : Bool
  canonArgs : String → String
  toolExec : String → String → Except String String
  execDurationMs : ℕ
  estTok : String → ℕ
  estMsgs : List AMsg → ℕ
  truncateTool : String → ℕ → String
  fabricationEnabled : Bool
  detectFabrication : String → Bool
  enableReflection : Bool
  reflectionInterval : ℕ
  reflect : ℕ → Option (String × String)
  toolsOffered : Bool

/-- `_is_reasoning_model` (llm.py lines 52-58). -/
def removePrefixStr (p s : String) : String :=
  if p.data.isPrefixOf s.data then String.mk (s.data.drop p.data.length) else s

/-- `_is_reasoning_model` (llm.py lines 52-58): prefix match on
`{o1, o3, o4}` after lower-casing and stripping `copilot:`. -/
def _is_reasoning_model (model : String) : Bool :=
  let name := removePrefixStr "copilot:" (String.mk (pyLower model.data))
  ["o1", "o3", "o4"].any (fun p =>
    name == p || (p ++ "-").data.isPrefixOf name.data)

/-- Tool disabling for reasoning models (react.py lines 60-63);
`tools` is the truthiness of `input.tools`. -/
def effectiveToolsOffered (model : String) (tools : Bool) : Bool :=
  if _is_reasoning_model (removePrefixStr "copilot:" model) && tools then false
  else tools

/-- The synthetic duplicate-call result (react.py line 209). -/
def dupResultText : String :=
  "⚠️ 你已经读取过这个内容了，请直接使用之前的结果，不要重复读取。"

/-- The round-cap stop notice (react.py line 171). -/
def capMsg (n : ℕ) : String :=
  "\n\n⚠️ " ++ "工具调用已达上限 (" ++ toString n ++ "轮)" ++ "，停止继续调用。"

/-- The fabrication correction injected as a user message
(react.py lines 314-322). -/
def fabricationWarning : String :=
  "⚠️ 你刚才在文本中伪造了命令执行结果，这是严重违规！" ++
  "你并没有真正执行任何命令。" ++
  "请立即通过 tool_call 调用 run_command 工具来执行命令，" ++
  "不要再在文本中编造结果。"

/-- Stream-collection state (react.py lines 72-78). -/
structure CollectState where
  pending : List (ℕ × PendTC)
  started : List ℕ
  hasContent : Bool
  finishReason : Option String
  textParts : List String
  usageData : Option UsageData
deriving DecidableEq, Repr

/-- Update (or insert at the end) the pending entry for an index. -/
def pendSet (i : ℕ) (tc : PendTC) : List (ℕ × PendTC) → List (ℕ × PendTC)
  | [] => [(i, tc)]
  | (j, u) :: t => if j = i then (j, tc) :: t else (j, u) :: pendSet i tc t

/-- One `tool_call_delta` (react.py lines 107-123). -/
def applyDelta (c : CollectState) (idx : ℕ)
    (idOpt nameOpt argsOpt : Option String) : CollectState × List AgentEvent :=
  let tc0 := (c.pending.lookup idx).getD ⟨"", "", ""⟩
  let tc1 := match idOpt with
    | some s => if s ≠ "" then { tc0 with id := s } else tc0
    | none => tc0
  let step2 : PendTC × List AgentEvent × List ℕ :=
    match nameOpt with
    | some nm =>
      if nm ≠ "" then
        let tc2 := { tc1 with name := nm }
        if nm = "ask_user" ∧ ¬ c.started.contains idx ∧ tc2.id ≠ "" then
          (tc2, [AgentEvent.toolCallStart tc2.id "ask_user"], c.started ++ [idx])
        else (tc2, [], c.started)
      else (tc1, [], c.started)
    | none => (tc1, [], c.started)
  let tc3 := match argsOpt with
    | some d =>
      if d ≠ "" then { step2.1 with arguments := step2.1.arguments ++ d }
      else step2.1
    | none => step2.1
  ({ c with pending := pendSet idx tc3 c.pending, started := step2.2.2 },
    step2.2.1)

/-- One streamed event (react.py lines 96-139); the `Bool` is "the error
branch returned". -/
def collectStep (c : CollectState) :
    StreamEvt → CollectState × List AgentEvent × Bool
  | .content s =>
    ({ c with hasContent := true, textParts := c.textParts ++ [s] },
      [AgentEvent.content s], false)
  | .thinking s => (c, [AgentEvent.thinking s], false)
  | .toolCallDelta idx a b d =>
    let r := applyDelta c idx a b d
    (r.1, r.2, false)
  | .usage u => ({ c with usageData := u }, [], false)
  | .finish reason => ({ c with finishReason := some reason }, [], false)
  | .error msg hasMeta => (c, [AgentEvent.error msg hasMeta], true)

/-- The stream-collection loop. -/
def collectRound : List StreamEvt → CollectState →
    CollectState × List AgentEvent × Bool
  | [], c => (c, [], false)
  | e :: rest, c =>
    let r := collectStep c e
    if r.2.2 then (r.1, r.2.1, true)
    else
      let r2 := collectRound rest r.1
      (r2.1, r.2.1 ++ r2.2.1, r2.2.2)

/-- Insertion sort by index (Python `sorted(pending_tool_calls.items())`;
indices are unique). -/
def insertSorted (x : ℕ × PendTC) : List (ℕ × PendTC) → List (ℕ × PendTC)
  | [] => [x]
  | y :: t => if x.1 ≤ y.1 then x :: y :: t else y :: insertSorted x t

/-- Sort the collected pending calls by index. -/
def sortPending (l : List (ℕ × PendTC)) : List (ℕ × PendTC) :=
  l.foldr insertSorted []

/-- The tool-call signature (react.py line 199). -/
def callSig (env : AgentEnv) (tc : PendTC) : String :=
  tc.name ++ ":" ++ env.canonArgs tc.arguments

/-- Python `set.add`. -/
def addSeen (seen : List String) (sig : String) : List String :=
  if seen.contains sig then seen else seen ++ [sig]

/-- Accumulator of the per-call loop (react.py lines 176-263). -/
structure ProcState where
  seen : List String
  events : List AgentEvent
  toolMsgs : List AMsg
  allCalls : List ExecRecord
deriving DecidableEq, Repr

/-- Process one collected tool call (react.py lines 192-263). -/
def processCall (env : AgentEnv) (msgs : List AMsg) (st : ProcState)
    (tc : PendTC) : ProcState :=
  let args := env.canonArgs tc.arguments
  let sig := tc.name ++ ":" ++ args
  let isDup := st.seen.contains sig
  let seen2 := addSeen st.seen sig
  let evCall := AgentEvent.toolCall tc.id tc.name args
  if isDup then
    { st with
      seen := seen2
      events := st.events ++
        [evCall, AgentEvent.toolResult tc.id tc.name args dupResultText 0]
      toolMsgs := st.toolMsgs ++ [⟨"tool", some dupResultText, [], some tc.id⟩] }
  else
    match env.toolExec tc.name args with
    | .ok result0 =>
      let remaining : ℤ :=
        (env.maxInput : ℤ) - env.estMsgs msgs - env.maxTokens - 200
      let result :=
        if (env.estTok result0 : ℤ) > remaining ∧ remaining > 500 then
          env.truncateTool result0 remaining.toNat ++
            "\n\n[… 内容已截断以适配模型上下文窗口 (" ++
            toString remaining.toNat ++
            " tokens), 请用 start_line/end_line 指定范围精确读取]"
        else if remaining ≤ 500 then
          env.truncateTool result0 500 ++ "\n\n[⚠️ 上下文空间不足, 内容已大幅截断]"
        else result0
      { seen := seen2
        events := st.events ++
          [evCall, AgentEvent.toolResult tc.id tc.name args result
            env.execDurationMs]
        toolMsgs := st.toolMsgs ++ [⟨"tool", some result, [], some tc.id⟩]
        allCalls := st.allCalls ++
          [⟨tc.id, tc.name, args, result, env.execDurationMs⟩] }
    | .error e =>
      let errMsg := "工具执行失败: " ++ e
      { seen := seen2
        events := st.events ++ [evCall, AgentEvent.toolError tc.id tc.name errMsg]
        toolMsgs := st.toolMsgs ++ [⟨"tool", some errMsg, [], some tc.id⟩]
        allCalls := st.allCalls ++
          [⟨tc.id, tc.name, args, "ERROR: " ++ errMsg, env.execDurationMs⟩] }

/-- The per-call loop over the sorted calls. -/
def processCalls (env : AgentEnv) (msgs : List AMsg) (st : ProcState) :
    List PendTC → ProcState
  | [] => st
  | tc :: rest => processCalls env msgs (processCall env msgs st tc) rest


/-- The initial collection state of a round (react.py lines 72-78). -/
def initCollect : CollectState := ⟨[], [], false, none, [], none⟩

/-- The sorted tool calls of a round (react.py line 175). -/
def roundTcs (pend : List (ℕ × PendTC)) : List PendTC :=
  (sortPending pend).map Prod.snd

/-- The `assistant` message carrying the round's tool calls
(react.py lines 179-190). -/
def roundAssistantMsg (tcs : List PendTC) : AMsg :=
  ⟨"assistant", none, tcs.map (fun tc => (tc.id, tc.name, tc.arguments)), none⟩

/-- The per-call loop of a round, started from the live `seen` /
`all_tool_calls` state (react.py lines 192-263). -/
def roundProc (env : AgentEnv) (st : AgState) (tcs : List PendTC) : ProcState :=
  processCalls env (st.messages ++ [roundAssistantMsg tcs])
    ⟨st.seen, [], [], st.allToolCalls⟩ tcs

/-- The loop state after a tool round (react.py lines 167, 186, 265). -/
def dispatchSt2 (env : AgentEnv) (st : AgState) (tcs : List PendTC) : AgState :=
  ⟨st.messages ++ [roundAssistantMsg tcs] ++ (roundProc env st tcs).toolMsgs,
    st.totalToolRounds + 1, (roundProc env st tcs).seen,
    (roundProc env st tcs).allCalls, st.fabricationRetries⟩

/-- A tool round under the cap: execute the calls, then the `ask_user`
interrupt and the optional reflection (react.py lines 175-296). -/
def dispatchTools (env : AgentEnv) (st : AgState) (evs2 : List AgentEvent)
    (pend : List (ℕ × PendTC)) : List AgentEvent × AgState × Bool :=
  let tcs := roundTcs pend
  let st2 := dispatchSt2 env st tcs
  let evs3 := evs2 ++ (roundProc env st tcs).events
  if tcs.any (fun tc => tc.name == "ask_user") then
    (evs3 ++ [AgentEvent.askUserPending], st2, false)
  else
    if env.enableReflection ∧ env.reflectionInterval ≠ 0 ∧
        st2.totalToolRounds % env.reflectionInterval = 0 then
      match env.reflect st2.totalToolRounds with
      | some sa =>
        let evs4 := evs3 ++ [AgentEvent.reflection sa.1 sa.2]
        if sa.2 = "abort" then
          (evs4 ++ [AgentEvent.content
            ("\n\n⚠️ Agent 反思后决定终止: " ++ sa.1)], st2, false)
        else (evs4, st2, true)
      | none => (evs3, st2, true)
    else (evs3, st2, true)

/-- A round with no tool calls: fabrication guard, then the
empty-response notice or plain return (react.py lines 298-335). -/
def textPhase (env : AgentEnv) (st : AgState) (c : CollectState)
    (evs2 : List AgentEvent) : List AgentEvent × AgState × Bool :=
  if c.hasContent ∧ env.toolsOffered ∧ st.fabricationRetries < 2 ∧
      env.fabricationEnabled ∧
      env.detectFabrication (String.join c.textParts) then
    (evs2 ++ [AgentEvent.content
        "\n\n⚠️ 检测到 AI 伪造执行结果，正在重新要求执行...\n\n"],
      { st with
        messages := st.messages ++
          [⟨"assistant", some (String.join c.textParts), [], none⟩,
           ⟨"user", some fabricationWarning, [], none⟩]
        fabricationRetries := st.fabricationRetries + 1 }, true)
  else if ¬ c.hasContent then
    (evs2 ++ [AgentEvent.content
      "\n\n⚠️ AI 返回了空响应，请重新发送或换个说法试试。"], st, false)
  else (evs2, st, false)

/-- The round's events up to the truncation notice: the collected
events, the usage event and the optional `truncated` event
(react.py lines 146-163). -/
def roundEvs2 (st : AgState) (c : CollectState) (evs0 : List AgentEvent) :
    List AgentEvent :=
  evs0 ++
    (match c.usageData with
     | some u => [AgentEvent.usage u.prompt_tokens u.completion_tokens
         u.total_tokens st.totalToolRounds]
     | none => []) ++
    (if c.finishReason = some "length" ∧ c.hasContent then
      [AgentEvent.truncated] else [])

/-- The pending calls that survive the `finish_reason == "length"`
discard (react.py lines 158-161). -/
def roundPend (c : CollectState) : List (ℕ × PendTC) :=
  if c.finishReason = some "length" then [] else c.pending

/-- The part of a loop iteration after a stream that neither hit the
error branch nor raised (react.py lines 146-335). -/
def roundBody (env : AgentEnv) (st : AgState) (c : CollectState)
    (evs0 : List AgentEvent) : List AgentEvent × AgState × Bool :=
  let evs2 := roundEvs2 st c evs0
  let pend := roundPend c
  if pend ≠ [] ∧ env.hasExecutor then
    if st.totalToolRounds + 1 > env.maxToolRounds then
      (evs2 ++ [AgentEvent.content (capMsg env.maxToolRounds)],
        { st with totalToolRounds := st.totalToolRounds + 1 }, false)
    else dispatchTools env st evs2 pend
  else textPhase env st c evs2

/-- One iteration of the `while True` loop (react.py lines 71-335):
the round's events, the updated loop state, and whether the loop
continues (`false` = `return`). The reflection guard carries an extra
`reflection_interval ≠ 0` conjunct where Python would raise
`ZeroDivisionError` (the default interval is 5); the
`total_tool_rounds > 0` conjunct of line 276 is omitted because the
counter was just incremented. -/
def runRound (env : AgentEnv) (st : AgState) (r : RoundStream) :
    List AgentEvent × AgState × Bool :=
  match collectRound r.events initCollect with
  | (_, evs0, true) => (evs0, st, false)
  | (c, evs0, false) =>
    match r.exn with
    | some e =>
      (evs0 ++ [AgentEvent.error ("❌ AI 服务异常: " ++ e) false], st, false)
    | none => roundBody env st c evs0

/-- The `while True` loop over the scripted per-round streams; an
exhausted script yields an empty stream, on which `act` emits the
empty-response notice and returns. -/
def actLoop (env : AgentEnv) : AgState → List RoundStream →
    List AgentEvent × AgState
  | st, [] => ((runRound env st ⟨[], none⟩).1, (runRound env st ⟨[], none⟩).2.1)
  | st, round :: rest =>
    let r := runRound env st round
    if r.2.2 then
      let r2 := actLoop env r.2.1 rest
      (r.1 ++ r2.1, r2.2)
    else (r.1, r.2.1)

/-- `ReActAgent.act` (react.py lines 45-335) as a pure function of the
environment, the model id and tool offering (lines 55-63), the incoming
messages and the scripted per-round streams. -/
def act (env : AgentEnv) (model : String) (tools : Bool)
    (input_messages : List AMsg) (script : List RoundStream) :
    List AgentEvent × AgState :=
  actLoop { env with toolsOffered := effectiveToolsOffered model tools }
    ⟨input_messages, 0, [], [], 0⟩ script


/-! ### Helper lemmas for the `act` loop -/

theorem contains_of_mem {l : List String} {a : String} (h : a ∈ l) :
    l.contains a = true :=
  List.elem_eq_true_of_mem h

theorem mem_addSeen {seen : List String} {s : String} (sig : String)
    (h : s ∈ seen) : s ∈ addSeen seen sig := by
  unfold addSeen
  split
  · exact h
  · exact List.mem_append_left _ h

theorem mem_addSeen_self (seen : List String) (sig : String) :
    sig ∈ addSeen seen sig := by
  unfold addSeen
  split
  · next h => exact List.mem_of_elem_eq_true h
  · exact List.mem_append_right _ (List.mem_singleton.mpr rfl)

theorem addSeen_of_contains {seen : List String} {sig : String}
    (h : seen.contains sig = true) : addSeen seen sig = seen := by
  unfold addSeen
  rw [if_pos h]

/-- The two events one processed call appends: the `tool_call` event and
one of `tool_result` (synthetic on duplicates) / `tool_error`; the
signature is always added to `seen`. -/
theorem processCall_shape (env : AgentEnv) (msgs : List AMsg) (st : ProcState)
    (tc : PendTC) :
    ∃ ev2 : AgentEvent,
      (processCall env msgs st tc).events =
        st.events ++
          [AgentEvent.toolCall tc.id tc.name (env.canonArgs tc.arguments), ev2] ∧
      (∀ i n g, ev2 ≠ AgentEvent.toolCall i n g) ∧
      (st.seen.contains (callSig env tc) = true →
        ev2 = AgentEvent.toolResult tc.id tc.name (env.canonArgs tc.arguments)
          dupResultText 0) ∧
      (processCall env msgs st tc).seen = addSeen st.seen (callSig env tc) := by
  simp only [processCall, callSig]
  split
  · refine ⟨AgentEvent.toolResult tc.id tc.name (env.canonArgs tc.arguments)
      dupResultText 0, rfl, ?_, fun _ => rfl, rfl⟩
    intro i n g h
    exact AgentEvent.noConfusion h
  · next hdup =>
    split
    · refine ⟨_, rfl, ?_, fun hc => absurd hc hdup, rfl⟩
      intro i n g h
      exact AgentEvent.noConfusion h
    · refine ⟨_, rfl, ?_, fun hc => absurd hc hdup, rfl⟩
      intro i n g h
      exact AgentEvent.noConfusion h

theorem processCalls_seen_mono (env : AgentEnv) (msgs : List AMsg) {s : String} :
    ∀ (tcs : List PendTC) (st : ProcState), s ∈ st.seen →
      s ∈ (processCalls env msgs st tcs).seen := by
  intro tcs
  induction tcs with
  | nil => intro st h; exact h
  | cons tc rest ih =>
    intro st h
    simp only [processCalls]
    apply ih
    obtain ⟨ev2, _, _, _, hseen⟩ := processCall_shape env msgs st tc
    rw [hseen]
    exact mem_addSeen _ h

theorem processCalls_events_mono (env : AgentEnv) (msgs : List AMsg)
    {e : AgentEvent} :
    ∀ (tcs : List PendTC) (st : ProcState), e ∈ st.events →
      e ∈ (processCalls env msgs st tcs).events := by
  intro tcs
  induction tcs with
  | nil => intro st h; exact h
  | cons tc rest ih =>
    intro st h
    simp only [processCalls]
    apply ih
    obtain ⟨ev2, hevents, _, _, _⟩ := processCall_shape env msgs st tc
    rw [hevents]
    exact List.mem_append_left _ h

/-- Every `tool_call` event emitted by the per-call loop leaves its
signature in the final `seen` set. -/
theorem processCalls_toolCall_sig (env : AgentEnv) (msgs : List AMsg)
    {i n g : String} :
    ∀ (tcs : List PendTC) (st : ProcState),
      AgentEvent.toolCall i n g ∈ (processCalls env msgs st tcs).events →
      AgentEvent.toolCall i n g ∈ st.events ∨
        (n ++ ":" ++ g) ∈ (processCalls env msgs st tcs).seen := by
  intro tcs
  induction tcs with
  | nil => intro st h; exact Or.inl h
  | cons tc rest ih =>
    intro st h
    simp only [processCalls] at h ⊢
    rcases ih (processCall env msgs st tc) h with h1 | h2
    · obtain ⟨ev2, hevents, hnc, _, hseen⟩ := processCall_shape env msgs st tc
      rw [hevents] at h1
      rcases List.mem_append.mp h1 with h3 | h3
      · exact Or.inl h3
      · rcases List.mem_cons.mp h3 with h4 | h4
        · refine Or.inr ?_
          apply processCalls_seen_mono
          rw [hseen]
          injection h4 with e1 e2 e3
          have h6 : callSig env tc = n ++ ":" ++ g := by
            simp only [callSig]
            rw [← e2, ← e3]
          rw [h6]
          exact mem_addSeen_self st.seen (n ++ ":" ++ g)
        · rcases List.mem_cons.mp h4 with h5 | h5
          · exact absurd h5.symm (hnc i n g)
          · simp at h5
    · exact Or.inr h2

/-- A call whose signature is already in `seen` when the loop starts
yields the synthetic duplicate `tool_result`. -/
theorem processCalls_dup (env : AgentEnv) (msgs : List AMsg) {i n g : String} :
    ∀ (tcs : List PendTC) (st : ProcState),
      (n ++ ":" ++ g) ∈ st.seen →
      AgentEvent.toolCall i n g ∈ (processCalls env msgs st tcs).events →
      AgentEvent.toolCall i n g ∈ st.events ∨
        AgentEvent.toolResult i n g dupResultText 0 ∈
          (processCalls env msgs st tcs).events := by
  intro tcs
  induction tcs with
  | nil => intro st _ h; exact Or.inl h
  | cons tc rest ih =>
    intro st hsig h
    simp only [processCalls] at h ⊢
    obtain ⟨ev2, hevents, hnc, hdup, hseen⟩ := processCall_shape env msgs st tc
    have hsig2 : (n ++ ":" ++ g) ∈ (processCall env msgs st tc).seen := by
      rw [hseen]; exact mem_addSeen _ hsig
    rcases ih (processCall env msgs st tc) hsig2 h with h1 | h2
    · rw [hevents] at h1
      rcases List.mem_append.mp h1 with h3 | h3
      · exact Or.inl h3
      · rcases List.mem_cons.mp h3 with h4 | h4
        · injection h4 with e1 e2 e3
          have h6 : callSig env tc = n ++ ":" ++ g := by
            simp only [callSig]
            rw [← e2, ← e3]
          have hc : st.seen.contains (callSig env tc) = true := by
            rw [h6]
            exact contains_of_mem hsig
          have hev2 := hdup hc
          refine Or.inr ?_
          apply processCalls_events_mono
          rw [hevents, e1, e2, e3, ← hev2]
          exact List.mem_append_right _ (by simp)
        · rcases List.mem_cons.mp h4 with h5 | h5
          · exact absurd h5.symm (hnc i n g)
          · simp at h5
    · exact Or.inr h2

theorem applyDelta_no_toolCall (c : CollectState) (idx : ℕ)
    (a b d : Option String) (i n g : String) :
    AgentEvent.toolCall i n g ∉ (applyDelta c idx a b d).2 := by
  simp only [applyDelta]
  rcases b with _ | nm
  · simp
  · dsimp only
    split
    · split <;> simp
    · simp

theorem collectStep_no_toolCall (c : CollectState) (e : StreamEvt)
    (i n g : String) :
    AgentEvent.toolCall i n g ∉ (collectStep c e).2.1 := by
  cases e with
  | content s => simp [collectStep]
  | thinking s => simp [collectStep]
  | toolCallDelta idx a b d =>
    simpa [collectStep] using applyDelta_no_toolCall c idx a b d i n g
  | usage u => simp [collectStep]
  | finish reason => simp [collectStep]
  | error m hm => simp [collectStep]

theorem collectRound_no_toolCall (i n g : String) :
    ∀ (evts : List StreamEvt) (c : CollectState),
      AgentEvent.toolCall i n g ∉ (collectRound evts c).2.1 := by
  intro evts
  induction evts with
  | nil => intro c; simp [collectRound]
  | cons e rest ih =>
    intro c
    simp only [collectRound]
    split
    · exact collectStep_no_toolCall c e i n g
    · intro h
      rcases List.mem_append.mp h with h1 | h1
      · exact collectStep_no_toolCall c e i n g h1
      · exact ih _ h1

theorem roundEvs2_no_toolCall (st : AgState) (c : CollectState)
    (evs0 : List AgentEvent) (i n g : String)
    (h0 : AgentEvent.toolCall i n g ∉ evs0) :
    AgentEvent.toolCall i n g ∉ roundEvs2 st c evs0 := by
  intro h
  simp only [roundEvs2, List.mem_append] at h
  rcases h with (h | h) | h
  · exact h0 h
  · split at h <;> simp at h
  · split at h <;> simp at h

theorem textPhase_events (env : AgentEnv) (st : AgState) (c : CollectState)
    (evs2 : List AgentEvent) :
    ((textPhase env st c evs2).2.1.totalToolRounds = st.totalToolRounds ∧
      (textPhase env st c evs2).2.1.seen = st.seen) ∧
    (∀ i n g, AgentEvent.toolCall i n g ∉ evs2 →
      AgentEvent.toolCall i n g ∉ (textPhase env st c evs2).1) := by
  unfold textPhase
  split
  · refine ⟨⟨rfl, rfl⟩, ?_⟩
    intro i n g h0 h
    rcases List.mem_append.mp h with h1 | h1
    · exact h0 h1
    · simp at h1
  · split
    · refine ⟨⟨rfl, rfl⟩, ?_⟩
      intro i n g h0 h
      rcases List.mem_append.mp h with h1 | h1
      · exact h0 h1
      · simp at h1
    · exact ⟨⟨rfl, rfl⟩, fun i n g h0 h => h0 h⟩

theorem dispatchTools_state (env : AgentEnv) (st : AgState)
    (evs2 : List AgentEvent) (pend : List (ℕ × PendTC)) :
    (dispatchTools env st evs2 pend).2.1 = dispatchSt2 env st (roundTcs pend) := by
  simp only [dispatchTools]
  split
  · rfl
  · split
    · split
      · split <;> rfl
      · rfl
    · rfl

theorem dispatchTools_events_shape (env : AgentEnv) (st : AgState)
    (evs2 : List AgentEvent) (pend : List (ℕ × PendTC)) :
    ∃ tail : List AgentEvent,
      (dispatchTools env st evs2 pend).1 =
        evs2 ++ (roundProc env st (roundTcs pend)).events ++ tail ∧
      ∀ i n g, AgentEvent.toolCall i n g ∉ tail := by
  simp only [dispatchTools]
  split
  · exact ⟨[AgentEvent.askUserPending], by simp [List.append_assoc],
      by intro i n g h; simp at h⟩
  · split
    · split
      · split
        · rename_i sa heq habort
          refine ⟨[AgentEvent.reflection sa.1 sa.2,
            AgentEvent.content ("\n\n⚠️ Agent 反思后决定终止: " ++ sa.1)],
            by simp [List.append_assoc], ?_⟩
          intro i n g h
          simp at h
        · rename_i sa heq habort
          exact ⟨[AgentEvent.reflection sa.1 sa.2], by simp [List.append_assoc],
            by intro i n g h; simp at h⟩
      · exact ⟨[], by simp, by intro i n g h; simp at h⟩
    · exact ⟨[], by simp, by intro i n g h; simp at h⟩

theorem roundBody_seen_mono (env : AgentEnv) (st : AgState) (c : CollectState)
    (evs0 : List AgentEvent) (s : String) (h : s ∈ st.seen) :
    s ∈ (roundBody env st c evs0).2.1.seen := by
  simp only [roundBody]
  split
  · split
    · exact h
    · rw [dispatchTools_state]
      simp only [dispatchSt2, roundProc]
      exact processCalls_seen_mono env _ _ _ h
  · rw [(textPhase_events env st c _).1.2]
    exact h

theorem roundBody_toolCall_seen (env : AgentEnv) (st : AgState)
    (c : CollectState) (evs0 : List AgentEvent) (i n g : String)
    (h0 : AgentEvent.toolCall i n g ∉ evs0) :
    AgentEvent.toolCall i n g ∈ (roundBody env st c evs0).1 →
    (n ++ ":" ++ g) ∈ (roundBody env st c evs0).2.1.seen := by
  have h2 : AgentEvent.toolCall i n g ∉ roundEvs2 st c evs0 :=
    roundEvs2_no_toolCall st c evs0 i n g h0
  simp only [roundBody]
  split
  · split
    · intro h
      exfalso
      rcases List.mem_append.mp h with h1 | h1
      · exact h2 h1
      · simp at h1
    · intro h
      obtain ⟨tail, hsh, hnt⟩ :=
        dispatchTools_events_shape env st (roundEvs2 st c evs0) (roundPend c)
      rw [hsh] at h
      rw [dispatchTools_state]
      have h3 : AgentEvent.toolCall i n g ∈
          (roundProc env st (roundTcs (roundPend c))).events := by
        rcases List.mem_append.mp h with h4 | h4
        · rcases List.mem_append.mp h4 with h5 | h5
          · exact absurd h5 h2
          · exact h5
        · exact absurd h4 (hnt i n g)
      simp only [dispatchSt2]
      simp only [roundProc] at h3 ⊢
      rcases processCalls_toolCall_sig env _ _ _ h3 with h5 | h5
      · simp at h5
      · exact h5
  · intro h
    exact absurd h ((textPhase_events env st c _).2 i n g h2)

theorem roundBody_dup (env : AgentEnv) (st : AgState) (c : CollectState)
    (evs0 : List AgentEvent) (i n g : String)
    (h0 : AgentEvent.toolCall i n g ∉ evs0)
    (hsig : (n ++ ":" ++ g) ∈ st.seen) :
    AgentEvent.toolCall i n g ∈ (roundBody env st c evs0).1 →
    AgentEvent.toolResult i n g dupResultText 0 ∈ (roundBody env st c evs0).1 := by
  have h2 : AgentEvent.toolCall i n g ∉ roundEvs2 st c evs0 :=
    roundEvs2_no_toolCall st c evs0 i n g h0
  simp only [roundBody]
  split
  · split
    · intro h
      exfalso
      rcases List.mem_append.mp h with h1 | h1
      · exact h2 h1
      · simp at h1
    · intro h
      obtain ⟨tail, hsh, hnt⟩ :=
        dispatchTools_events_shape env st (roundEvs2 st c evs0) (roundPend c)
      rw [hsh] at h ⊢
      have h3 : AgentEvent.toolCall i n g ∈
          (roundProc env st (roundTcs (roundPend c))).events := by
        rcases List.mem_append.mp h with h4 | h4
        · rcases List.mem_append.mp h4 with h5 | h5
          · exact absurd h5 h2
          · exact h5
        · exact absurd h4 (hnt i n g)
      simp only [roundProc] at h3
      rcases processCalls_dup env _ _ _ hsig h3 with h5 | h5
      · simp at h5
      · refine List.mem_append_left _ (List.mem_append_right _ ?_)
        simpa [roundProc] using h5
  · intro h
    exact absurd h ((textPhase_events env st c _).2 i n g h2)

theorem roundBody_cap (env : AgentEnv) (st : AgState) (c : CollectState)
    (evs0 : List AgentEvent) :
    (roundBody env st c evs0).2.1.totalToolRounds = st.totalToolRounds ∨
    ((roundBody env st c evs0).2.1.totalToolRounds = st.totalToolRounds + 1 ∧
      ((roundBody env st c evs0).2.2 = true →
        st.totalToolRounds + 1 ≤ env.maxToolRounds) ∧
      (st.totalToolRounds + 1 > env.maxToolRounds →
        (roundBody env st c evs0).2.2 = false ∧
        (roundBody env st c evs0).1.getLast? =
          some (AgentEvent.content (capMsg env.maxToolRounds)))) := by
  simp only [roundBody]
  split
  · split
    · refine Or.inr ⟨rfl, ?_, ?_⟩
      · intro h; simp at h
      · intro _
        exact ⟨rfl, (getLast?_append_right _
          [AgentEvent.content (capMsg env.maxToolRounds)] (by simp)).trans rfl⟩
    · next hcap =>
      rw [dispatchTools_state]
      refine Or.inr ⟨rfl, ?_, ?_⟩
      · intro _; omega
      · intro h; exact absurd h hcap
  · exact Or.inl (textPhase_events env st c _).1.1

theorem runRound_seen_mono (env : AgentEnv) (st : AgState) (r : RoundStream)
    (s : String) (h : s ∈ st.seen) : s ∈ (runRound env st r).2.1.seen := by
  simp only [runRound]
  rcases hcol : collectRound r.events initCollect with ⟨c, evs0, aborted⟩
  cases aborted
  · cases hexn : r.exn with
    | none => exact roundBody_seen_mono env st c evs0 s h
    | some e => exact h
  · exact h

theorem runRound_toolCall_seen (env : AgentEnv) (st : AgState) (r : RoundStream)
    (i n g : String)
    (h : AgentEvent.toolCall i n g ∈ (runRound env st r).1) :
    (n ++ ":" ++ g) ∈ (runRound env st r).2.1.seen := by
  have hno := collectRound_no_toolCall i n g r.events initCollect
  revert h
  simp only [runRound]
  rcases hcol : collectRound r.events initCollect with ⟨c, evs0, aborted⟩
  rw [hcol] at hno
  cases aborted
  · cases hexn : r.exn with
    | none =>
      intro h
      exact roundBody_toolCall_seen env st c evs0 i n g (by simpa using hno) h
    | some e =>
      intro h
      exfalso
      rcases List.mem_append.mp h with h1 | h1
      · exact (by simpa using hno : AgentEvent.toolCall i n g ∉ evs0) h1
      · simp at h1
  · intro h
    exact absurd h (by simpa using hno)

theorem runRound_dup (env : AgentEnv) (st : AgState) (r : RoundStream)
    (i n g : String) (hsig : (n ++ ":" ++ g) ∈ st.seen)
    (h : AgentEvent.toolCall i n g ∈ (runRound env st r).1) :
    AgentEvent.toolResult i n g dupResultText 0 ∈ (runRound env st r).1 := by
  have hno := collectRound_no_toolCall i n g r.events initCollect
  revert h
  simp only [runRound]
  rcases hcol : collectRound r.events initCollect with ⟨c, evs0, aborted⟩
  rw [hcol] at hno
  cases aborted
  · cases hexn : r.exn with
    | none =>
      intro h
      exact roundBody_dup env st c evs0 i n g (by simpa using hno) hsig h
    | some e =>
      intro h
      exfalso
      rcases List.mem_append.mp h with h1 | h1
      · exact (by simpa using hno : AgentEvent.toolCall i n g ∉ evs0) h1
      · simp at h1
  · intro h
    exact absurd h (by simpa using hno)

theorem runRound_cap (env : AgentEnv) (st : AgState) (r : RoundStream) :
    (runRound env st r).2.1.totalToolRounds = st.totalToolRounds ∨
    ((runRound env st r).2.1.totalToolRounds = st.totalToolRounds + 1 ∧
      ((runRound env st r).2.2 = true →
        st.totalToolRounds + 1 ≤ env.maxToolRounds) ∧
      (st.totalToolRounds + 1 > env.maxToolRounds →
        (runRound env st r).2.2 = false ∧
        (runRound env st r).1.getLast? =
          some (AgentEvent.content (capMsg env.maxToolRounds)))) := by
  simp only [runRound]
  rcases hcol : collectRound r.events initCollect with ⟨c, evs0, aborted⟩
  cases aborted
  · cases hexn : r.exn with
    | none => exact roundBody_cap env st c evs0
    | some e => exact Or.inl rfl
  · exact Or.inl rfl

theorem actLoop_seen_mono (env : AgentEnv) (s : String) :
    ∀ (script : List RoundStream) (st : AgState), s ∈ st.seen →
      s ∈ (actLoop env st script).2.seen := by
  intro script
  induction script with
  | nil =>
    intro st h
    simp only [actLoop]
    exact runRound_seen_mono env st ⟨[], none⟩ s h
  | cons round rest ih =>
    intro st h
    simp only [actLoop]
    split
    · exact ih _ (runRound_seen_mono env st round s h)
    · exact runRound_seen_mono env st round s h

theorem actLoop_toolCall_seen (env : AgentEnv) (i n g : String) :
    ∀ (script : List RoundStream) (st : AgState),
      AgentEvent.toolCall i n g ∈ (actLoop env st script).1 →
      (n ++ ":" ++ g) ∈ (actLoop env st script).2.seen := by
  intro script
  induction script with
  | nil =>
    intro st h
    simp only [actLoop] at h ⊢
    exact runRound_toolCall_seen env st ⟨[], none⟩ i n g h
  | cons round rest ih =>
    intro st h
    simp only [actLoop] at h ⊢
    by_cases hc : (runRound env st round).2.2 = true
    · rw [if_pos hc] at h ⊢
      rcases List.mem_append.mp h with h1 | h1
      · exact actLoop_seen_mono env _ rest _
          (runRound_toolCall_seen env st round i n g h1)
      · exact ih _ h1
    · rw [if_neg hc] at h ⊢
      exact runRound_toolCall_seen env st round i n g h

theorem actLoop_cap (env : AgentEnv) :
    ∀ (script : List RoundStream) (st : AgState),
      st.totalToolRounds ≤ env.maxToolRounds →
      (actLoop env st script).2.totalToolRounds ≤ env.maxToolRounds + 1 ∧
      ((actLoop env st script).2.totalToolRounds = env.maxToolRounds + 1 →
        (actLoop env st script).1.getLast? =
          some (AgentEvent.content (capMsg env.maxToolRounds))) := by
  intro script
  induction script with
  | nil =>
    intro st h
    simp only [actLoop]
    rcases runRound_cap env st ⟨[], none⟩ with h1 | ⟨h1, _, h3⟩
    · exact ⟨by omega, fun hmax => by omega⟩
    · refine ⟨by omega, ?_⟩
      intro hmax
      exact (h3 (by omega)).2
  | cons round rest ih =>
    intro st h
    simp only [actLoop]
    by_cases hcont : (runRound env st round).2.2 = true
    · rw [if_pos hcont]
      dsimp only
      have hle : (runRound env st round).2.1.totalToolRounds ≤ env.maxToolRounds := by
        rcases runRound_cap env st round with h1 | ⟨h1, h2, _⟩
        · omega
        · have := h2 hcont; omega
      obtain ⟨ha, hb⟩ := ih _ hle
      refine ⟨ha, ?_⟩
      intro hmax
      have hb2 := hb hmax
      have hne : (actLoop env (runRound env st round).2.1 rest).1 ≠ [] := by
        intro hnil
        rw [hnil] at hb2
        simp at hb2
      rw [getLast?_append_right _ _ hne]
      exact hb2
    · rw [if_neg hcont]
      dsimp only
      rcases runRound_cap env st round with h1 | ⟨h1, _, h3⟩
      · exact ⟨by omega, fun hmax => by omega⟩
      · refine ⟨by omega, ?_⟩
        intro hmax
        exact (h3 (by omega)).2


/-- A concrete environment for exercising the agent loop: identity
argument canonicalisation, an executor that returns "FILEDATA" in 7 ms,
no reflection, fabrication never detected. -/
def sampleEnv : AgentEnv :=
  ⟨100000, 100, 2, true, id, fun _ _ => Except.ok "FILEDATA", 7,
    fun _ => 0, fun _ => 0, fun s _ => s, true, fun _ => false,
    false, 5, fun _ => none, true⟩

/-- A scripted round in which the model issues one tool call and
finishes. -/
def tcRound (idS nameS argsS : String) : RoundStream :=
  ⟨[StreamEvt.toolCallDelta 0 (some idS) (some nameS) (some argsS),
    StreamEvt.finish "tool_calls"], none⟩

/-- Three rounds of tool calls against `sampleEnv.maxToolRounds = 2`. -/
def capScript : List RoundStream :=
  [tcRound "c1" "read_file" "p1", tcRound "c2" "read_file" "p2",
   tcRound "c3" "read_file" "p3"]

/-- C3: across an agent run the tool-round counter exceeds
`max_tool_rounds` at most once (so at most `max_tool_rounds` rounds
execute tools: the crossing round executes none), and when the counter
crosses the cap the run's final event is the content event carrying the
stop notice — the text `工具调用已达上限 ({max}轮)` is a substring of
that message, and no further event (in particular no `tool_call`)
follows it. -/
theorem C3_round_cap (env : AgentEnv) (model : String) (tools : Bool)
    (msgs : List AMsg) (script : List RoundStream) :
    (act env model tools msgs script).2.totalToolRounds ≤ env.maxToolRounds + 1 ∧
    ((act env model tools msgs script).2.totalToolRounds = env.maxToolRounds + 1 →
      (act env model tools msgs script).1.getLast? =
        some (AgentEvent.content (capMsg env.maxToolRounds))) ∧
    ("工具调用已达上限 (" ++ toString env.maxToolRounds ++ "轮)").data <:+:
      (capMsg env.maxToolRounds).data := by
  have h := actLoop_cap { env with toolsOffered := effectiveToolsOffered model tools }
    script ⟨msgs, 0, [], [], 0⟩ (Nat.zero_le _)
  refine ⟨h.1, h.2, ?_⟩
  refine ⟨"\n\n⚠️ ".data, "，停止继续调用。".data, ?_⟩
  simp [capMsg, List.append_assoc]

/-- C3 witness: with `max_tool_rounds = 2` and a model that issues tool
calls every round, the counter ends at 3 and the run's last event is
the stop-notice content event. -/
theorem C3_witness :
    (act sampleEnv "gpt-4o" true [] capScript).2.totalToolRounds = 3 ∧
    (act sampleEnv "gpt-4o" true [] capScript).1.getLast? =
      some (AgentEvent.content (capMsg 2)) :=
  ⟨rfl, (C3_round_cap sampleEnv "gpt-4o" true [] capScript).2.1 rfl⟩

/-- C4 counterexample: in a run where the model repeats the same call in
the next round, the duplicate `tool_result` carries the synthetic text,
but that text starts with `⚠️ `, not with `你已经读取过`. -/
theorem C4_counterexample :
    AgentEvent.toolResult "c2" "read_file" "args" dupResultText 0 ∈
      (act sampleEnv "gpt-4o" true []
        [tcRound "c1" "read_file" "args", tcRound "c2" "read_file" "args"]).1 ∧
    "你已经读取过".data.isPrefixOf dupResultText.data = false := by
  exact ⟨by decide, by decide⟩

/-- C4 (amended): when a round issues a tool call whose name and
canonically serialised arguments equal those of a call issued in the
immediately preceding round, that round also emits the duplicate
`tool_result` for it with `duration_ms = 0` and the fixed synthetic
result text, which CONTAINS `你已经读取过` (it starts with `⚠️ `). -/
theorem C4_duplicate_result (env : AgentEnv) (st : AgState)
    (r1 r2 : RoundStream) (i1 i2 n g : String)
    (h1 : AgentEvent.toolCall i1 n g ∈ (runRound env st r1).1)
    (h2 : AgentEvent.toolCall i2 n g ∈
      (runRound env (runRound env st r1).2.1 r2).1) :
    AgentEvent.toolResult i2 n g dupResultText 0 ∈
      (runRound env (runRound env st r1).2.1 r2).1 ∧
    containsSub "你已经读取过".data dupResultText.data = true := by
  have hs : (n ++ ":" ++ g) ∈ (runRound env st r1).2.1.seen :=
    runRound_toolCall_seen env st r1 i1 n g h1
  exact ⟨runRound_dup env _ r2 i2 n g hs h2, by decide⟩

/-- C4 witness: the concrete two-round duplicate run. -/
theorem C4_witness :
    AgentEvent.toolResult "c2" "read_file" "args" dupResultText 0 ∈
      (runRound sampleEnv
        (runRound sampleEnv ⟨[], 0, [], [], 0⟩
          (tcRound "c1" "read_file" "args")).2.1
        (tcRound "c2" "read_file" "args")).1 ∧
    containsSub "你已经读取过".data dupResultText.data = true :=
  C4_duplicate_result sampleEnv ⟨[], 0, [], [], 0⟩
    (tcRound "c1" "read_file" "args") (tcRound "c2" "read_file" "args")
    "c1" "c2" "read_file" "args" (by decide) (by decide)

/-- C9: within a run the set of seen tool-call signatures
(`name ++ ":" ++ canonical args`) only grows — it survives every round
of `actLoop` — and every emitted `tool_call`'s signature is recorded in
it; a call whose signature is already in `seen` (whether from the same
round or any earlier round) is dispatched to the duplicate branch:
`processCall` then appends only the `tool_call` event and the synthetic
duplicate `tool_result` (duration 0), leaves `all_tool_calls` unchanged,
and never consults the tool executor. -/
theorem C9_dedup_invariant (env : AgentEnv) (st : AgState)
    (script : List RoundStream) (s i n g : String) (msgs : List AMsg)
    (pst : ProcState) (tc : PendTC) :
    (s ∈ st.seen → s ∈ (actLoop env st script).2.seen) ∧
    (AgentEvent.toolCall i n g ∈ (actLoop env st script).1 →
      (n ++ ":" ++ g) ∈ (actLoop env st script).2.seen) ∧
    (pst.seen.contains (callSig env tc) = true →
      processCall env msgs pst tc =
        { pst with
          events := pst.events ++
            [AgentEvent.toolCall tc.id tc.name (env.canonArgs tc.arguments),
             AgentEvent.toolResult tc.id tc.name (env.canonArgs tc.arguments)
               dupResultText 0]
          toolMsgs := pst.toolMsgs ++
            [⟨"tool", some dupResultText, [], some tc.id⟩] }) := by
  refine ⟨actLoop_seen_mono env s script st,
    actLoop_toolCall_seen env i n g script st, ?_⟩
  intro hc
  simp only [processCall, callSig] at hc ⊢
  rw [if_pos hc, addSeen_of_contains hc]

/-- C9 witness: a seen signature survives a (trivial) loop, and a
duplicate call is rewritten without touching `all_tool_calls`. -/
theorem C9_witness :
    ("s" ∈ (actLoop sampleEnv ⟨[], 0, ["s"], [], 0⟩ []).2.seen) ∧
    (processCall sampleEnv [] ⟨["x:y"], [], [], []⟩ ⟨"i1", "x", "y"⟩ =
      ⟨["x:y"],
        [AgentEvent.toolCall "i1" "x" "y",
         AgentEvent.toolResult "i1" "x" "y" dupResultText 0],
        [⟨"tool", some dupResultText, [], some "i1"⟩], []⟩) := by
  have h := C9_dedup_invariant sampleEnv ⟨[], 0, ["s"], [], 0⟩ [] "s" "i" "n" "g"
    [] ⟨["x:y"], [], [], []⟩ ⟨"i1", "x", "y"⟩
  exact ⟨h.1 (by decide), (h.2.2 (by decide)).trans rfl⟩

end AIStudio
